import Mathlib

/-!
Fulcrum connection layer: peer pool manager (EXMgr) and daemon pool manager (BitcoinDMgr)

A shallow embedding of `src/EXMgr.cpp` and of the signal handlers installed by
`BitcoinDMgr::startup` in `src/BitcoinD.cpp`, followed by theorems about them.

Conventions of the embedding

* Every slot of a manager runs on the manager's own thread, one event at a time, so a slot is
  a pure function from the manager state (and the object a pointer argument points to) to the
  new state together with the signals it emits.
* `QSet<qint64>` is a list of ids; `insert` does nothing when the id is present, so a set
  built by the slots never holds an id twice.
* `QMap` / `QHash` tables are association lists with at most one entry per key.
* `Util::getTime()` is the argument `now`.
* An `RPC::Message` carries a `QVariant`; the embedding records what the Qt accessor chains
  used by the manager return on it (see `Message`).
* `Debug()` output is not modelled; `Error()` lines are, where a theorem speaks of them.
-/

namespace Fulcrum

/-! ## Data model -/

/-- Ids handed out by `newId()` are `qint64`. -/
abbrev ClientId := Int

/-- The `enum Status` of `AbstractConnection` (AbstractConnection.h, lines 38-43). -/
inductive Status where
  | NotConnected
  | Connecting
  | Connected
  | Bad
deriving DecidableEq, Repr

/-- The per-peer `info` block written by `EXMgr::onMessage`. -/
structure Info where
  serverVersion : String × String
  height : Int
  header : String
deriving DecidableEq, Repr

/-- Modelled from the spec: `Info::clear()` is declared in EXClient.h, which is not among the
sources; the spec says the peer info is "cleared on disconnect", that is, reset to its
default-constructed value. -/
def Info.clear (_ : Info) : Info :=
  { serverVersion := ("", ""), height := 0, header := "" }

/-- The fields of an `EXClient` that the manager reads or writes. -/
structure EXClient where
  id : ClientId
  host : String
  status : Status
  lastGood : Int
  lastConnectionAttempt : Int
  info : Info
deriving DecidableEq, Repr

/-- The member `height` of `EXMgr`: the consensus record. -/
structure HeightRecord where
  height : Int
  ts : Int
  header : String
  seenBy : List ClientId
deriving DecidableEq, Repr

/-- The default-constructed record: height 0, nobody has seen it. -/
def HeightRecord.initial : HeightRecord :=
  { height := 0, ts := 0, header := "", seenBy := [] }

/-- A `BTC::Address`, kept as its text. -/
structure Address where
  text : String
deriving DecidableEq, Repr

/-- An entry of `pendingListUnspentReqs`, as filled in by `EXMgr::_listUnspent`
(lines 273-276). -/
structure PendingReq where
  address : Address
  ts : Int
  clientId : ClientId
deriving DecidableEq, Repr

/-- A default-constructed entry, which is what `QMap::take` returns for a key that is not in
the map. -/
def PendingReq.dflt : PendingReq :=
  { address := { text := "" }, ts := 0, clientId := 0 }

/-- A `BTC::UTXO(tx_hash, tx_pos)`; `tx_pos` is a `quint32`. -/
abbrev UTXO := String × Nat

/-- The `AddressUnspentEntry` built by `processListUnspentResults`. -/
structure AddressUnspentEntry where
  address : Address
  tsVerified : Int
  heightVerified : Int
  utxoAmounts : List (UTXO × Nat)
  utxoUnconfAmounts : List (UTXO × Nat)
deriving DecidableEq, Repr

/-- One element `var` of the result list of `blockchain.scripthash.listunspent`, seen through
the accessors of lines 296-306: `var.toMap().isEmpty()`, `map.value("tx_hash").toString()`,
and the three numeric conversions, each `none` when Qt sets `ok` to false. -/
structure UnspentVar where
  mapIsEmpty : Bool
  tx_hash : String
  tx_pos : Option Nat
  height : Option Int
  value : Option Nat
deriving DecidableEq, Repr

/-- An `RPC::Message` as the manager sees it. `versionList` is `m.data.toList()` read as
strings (line 104), `headerHeight` and `headerHex` are the values computed in lines 113-116,
`unspentList` is `m.data.toList()` of line 292, `json` is `m.toJsonString()`. -/
structure Message where
  method : String
  id : Int
  isResult : Bool
  json : String
  versionList : List String
  headerHeight : Int
  headerHex : String
  unspentList : List UnspentVar
deriving DecidableEq, Repr

/-- The signals of `EXMgr`. -/
inductive Signal where
  | gotNewBlockHeight (height : Int)
  | gotListUnspentResults (entry : AddressUnspentEntry)
deriving DecidableEq, Repr

/-- A line written through `Error()`. -/
structure ErrorLine where
  what : String
  server : String
  json : String
deriving DecidableEq, Repr

/-- What a slot does besides changing the state: the signals it emits, the `Error()` lines
it writes, and the C++ exception that leaves it, if any. -/
structure Effects where
  signals : List Signal
  errors : List ErrorLine
  escaped : Option String
deriving DecidableEq, Repr

/-- A slot that emits nothing, logs nothing and returns normally. -/
def Effects.none : Effects :=
  { signals := [], errors := [], escaped := Option.none }

/-- The state of an `EXMgr`. -/
structure EXMgr where
  clients : List EXClient
  clientsById : List (ClientId × EXClient)
  height : HeightRecord
  recentPicks : List ClientId
  pendingListUnspentReqs : List (Int × PendingReq)
deriving DecidableEq, Repr

/-- Code of the repository that `EXMgr.cpp` calls and that is not among the sources:
`PendingReq::isValid()` (EXMgr.h) and `BTC::UTXO::isValid()` (BTC.h). -/
structure Ext where
  pendIsValid : PendingReq → Bool
  utxoIsValid : String → Nat → Bool

/-! ## Sets and tables -/

/-- The call `QSet::insert`. -/
def setInsert (s : List ClientId) (x : ClientId) : List ClientId :=
  if x ∈ s then s else s ++ [x]

/-- The call `QSet::remove`. -/
def setRemove (s : List ClientId) (x : ClientId) : List ClientId :=
  s.filter (fun y => decide (y ≠ x))

/-- The set difference `a - b` of two `QSet`s. -/
def setDiff (a b : List ClientId) : List ClientId :=
  a.filter (fun y => decide (y ∉ b))

/-- Lookup of a key in a table. -/
def tableGet {K V : Type} [DecidableEq K] : List (K × V) → K → Option V
  | [], _ => none
  | (k, v) :: rest, key => if k = key then some v else tableGet rest key

/-- The assignment `table[key] = v`: overwrite the entry of `key`, or add one. -/
def tableSet {K V : Type} [DecidableEq K] : List (K × V) → K → V → List (K × V)
  | [], key, v => [(key, v)]
  | (k, w) :: rest, key, v =>
    if k = key then (k, v) :: rest else (k, w) :: tableSet rest key v

/-- Removal of the entries of a key. -/
def tableErase {K V : Type} [DecidableEq K] (t : List (K × V)) (key : K) : List (K × V) :=
  t.filter (fun e => decide (e.1 ≠ key))

/-- The call `pendingListUnspentReqs.take(id)`: the entry (a default-constructed one when
the key is absent) and the table without it. -/
def takePending (t : List (Int × PendingReq)) (id : Int) :
    PendingReq × List (Int × PendingReq) :=
  match tableGet t id with
  | some p => (p, tableErase t id)
  | none => (PendingReq.dflt, t)

/-! ## `EXMgr::onLostConnection` (lines 81-86) -/

/-- The slot `onLostConnection`: the peer leaves `seenBy`, its info is cleared. -/
def onLostConnection (mgr : EXMgr) (client : EXClient) : EXMgr × EXClient :=
  ({ mgr with height := { mgr.height with seenBy := setRemove mgr.height.seenBy client.id } },
   { client with info := client.info.clear })

/-! ## `EXMgr::processListUnspentResults` (lines 280-319) -/

/-- What the `try` block throws: an `Err` (derived from `Exception`, a `std::exception`), or
the string literal of line 297, `throw("Empty map in results list")`, whose type is
`const char *`. -/
inductive Thrown where
  | err (what : String)
  | cstr (what : String)
deriving DecidableEq, Repr

/-- The loop of lines 295-311 over the result list. -/
def aggregate (ext : Ext) (entry : AddressUnspentEntry) :
    List UnspentVar → Except Thrown AddressUnspentEntry
  | [] => Except.ok entry
  | var :: rest =>
    if var.mapIsEmpty then Except.error (Thrown.cstr "Empty map in results list")
    else match var.tx_pos with
      | none => Except.error (Thrown.err "Bad tx_pos in dict")
      | some tx_pos =>
        match var.height with
        | none => Except.error (Thrown.err "Bad height in dict")
        | some height =>
          match var.value with
          | none => Except.error (Thrown.err "Bad value in dict")
          | some value =>
            if ext.utxoIsValid var.tx_hash tx_pos then
              aggregate ext
                (if height > 0 then
                  { entry with
                    utxoAmounts := tableSet entry.utxoAmounts (var.tx_hash, tx_pos) value }
                else
                  { entry with
                    utxoUnconfAmounts :=
                      tableSet entry.utxoUnconfAmounts (var.tx_hash, tx_pos) value })
                rest
            else
              Except.error
                (Thrown.err ("bad utxo: " ++ var.tx_hash ++ ":" ++ toString tx_pos))

/-- The body of the `try` block, lines 284-314, after the `take` of line 284. -/
def tryBlock (ext : Ext) (pend : PendingReq) (client : EXClient) (m : Message) (now : Int) :
    Except Thrown AddressUnspentEntry :=
  if ext.pendIsValid pend then
    let entry : AddressUnspentEntry :=
      { address := pend.address, tsVerified := now, heightVerified := client.info.height,
        utxoAmounts := [], utxoUnconfAmounts := [] }
    if m.unspentList.isEmpty then Except.error (Thrown.err "Empty results")
    else aggregate ext entry m.unspentList
  else Except.error (Thrown.err "No pending request matching req.id was found in map! FIXME!")

/-- The handler `processListUnspentResults`. The `catch` clause of line 315 catches
`std::exception`, so an `Err` is logged with the host and the JSON of the message and the
handler returns; a thrown `const char *` is not caught and leaves the handler. -/
def processListUnspentResults (ext : Ext) (mgr : EXMgr) (client : EXClient) (m : Message)
    (now : Int) : EXMgr × Effects :=
  let taken := takePending mgr.pendingListUnspentReqs m.id
  let mgr1 : EXMgr := { mgr with pendingListUnspentReqs := taken.2 }
  match tryBlock ext taken.1 client m now with
  | Except.ok entry =>
    (mgr1, { signals := [Signal.gotListUnspentResults entry], errors := [],
             escaped := none })
  | Except.error (Thrown.err what) =>
    (mgr1, { signals := [], errors := [{ what := what, server := client.host, json := m.json }],
             escaped := none })
  | Except.error (Thrown.cstr what) =>
    (mgr1, { signals := [], errors := [], escaped := some what })

/-! ## `EXMgr::onMessage` (lines 100-143) -/

/-- The branch of `onMessage` for `blockchain.headers.subscribe`, lines 111-134, on the
height `ht` and header `hdr` decoded in lines 113-116. -/
def onHeaders (mgr : EXMgr) (client : EXClient) (m : Message) (now : Int) :
    EXMgr × EXClient × Effects :=
  let ht := m.headerHeight
  let hdr := m.headerHex
  if ht > 0 ∧ hdr ≠ "" then
    let h1 : HeightRecord :=
      if ht > mgr.height.height then
        { height := ht, ts := now, header := hdr, seenBy := [] }
      else mgr.height
    let h2 : HeightRecord :=
      if ht = h1.height then { h1 with seenBy := setInsert h1.seenBy client.id } else h1
    let signals : List Signal :=
      if ht = h1.height ∧ h2.seenBy.length = 1 then [Signal.gotNewBlockHeight h2.height]
      else []
    ({ mgr with height := h2 },
     { client with info := { client.info with height := ht, header := hdr } },
     { signals := signals, errors := [], escaped := none })
  else
    (mgr, client,
     { signals := [],
       errors := [{ what := "Bad server headers reply! Schema should have handled this. FIXME!",
                    server := client.host, json := m.json }],
       escaped := none })

/-- The slot `onMessage`. -/
def onMessage (ext : Ext) (mgr : EXMgr) (client : EXClient) (m : Message) (now : Int) :
    EXMgr × EXClient × Effects :=
  if m.method = "server.version" then
    match m.isResult, m.versionList with
    | true, [a, b] =>
      (mgr, { client with info := { client.info with serverVersion := (a, b) } }, Effects.none)
    | _, _ =>
      (mgr, client,
       { signals := [],
         errors := [{ what := "Bad server version reply! Schema should have handled this. FIXME!",
                      server := client.host, json := m.json }],
         escaped := none })
  else if m.method = "blockchain.headers.subscribe" then
    onHeaders mgr client m now
  else if m.method = "server.ping" then
    (mgr, client, Effects.none)
  else if m.method = "blockchain.scripthash.listunspent" ∧ m.isResult = true then
    let r := processListUnspentResults ext mgr client m now
    (r.1, client, r.2)
  else
    (mgr, client,
     { signals := [],
       errors := [{ what := "Unknown method", server := client.host, json := m.json }],
       escaped := none })

/-! ## Sequences of manager events -/

/-- An event delivered to the manager: a message from a peer, or the loss of its
connection. -/
inductive MgrEvent where
  | message (client : EXClient) (m : Message) (now : Int)
  | lostConnection (client : EXClient)
deriving DecidableEq, Repr

/-- One event: the new manager state and the signals emitted while handling it. -/
def stepEvent (ext : Ext) (mgr : EXMgr) : MgrEvent → EXMgr × List Signal
  | MgrEvent.message client m now =>
    let r := onMessage ext mgr client m now
    (r.1, r.2.2.signals)
  | MgrEvent.lostConnection client => ((onLostConnection mgr client).1, [])

/-- A sequence of events, in order: the final state and all signals emitted, in order. -/
def runEvents (ext : Ext) (mgr : EXMgr) : List MgrEvent → EXMgr × List Signal
  | [] => (mgr, [])
  | e :: rest =>
    let r := stepEvent ext mgr e
    let q := runEvents ext r.1 rest
    (q.1, r.2 ++ q.2)

/-- A valid header report, as line 117 tests it: the method is the header subscription, the
height is positive, the header is not empty. -/
def validReport : MgrEvent → Prop
  | MgrEvent.message _ m _ =>
    m.method = "blockchain.headers.subscribe" ∧ m.headerHeight > 0 ∧ m.headerHex ≠ ""
  | MgrEvent.lostConnection _ => False

/-- The peer an event is about. -/
def MgrEvent.peer : MgrEvent → ClientId
  | MgrEvent.message client _ _ => client.id
  | MgrEvent.lostConnection client => client.id

/-- The height a message event reports (0 for a lost connection). -/
def MgrEvent.ht : MgrEvent → Int
  | MgrEvent.message _ m _ => m.headerHeight
  | MgrEvent.lostConnection _ => 0

/-- The header a message event reports. -/
def MgrEvent.hdr : MgrEvent → String
  | MgrEvent.message _ m _ => m.headerHex
  | MgrEvent.lostConnection _ => ""

/-- A manager that has not yet heard of any block: the initial record. -/
def freshMgr (clients : List EXClient) : EXMgr :=
  { clients := clients, clientsById := clients.map (fun c => (c.id, c)),
    height := HeightRecord.initial, recentPicks := [], pendingListUnspentReqs := [] }

/-! ## Output records of `blockchain.scripthash.listunspent` -/

/-- A malformed output record, by the tests of lines 297-309: not a non-empty map, a
`tx_pos` that is not an unsigned integer, a `height` that is not an integer, a `value` that
is not an unsigned integer, or a pair of `tx_hash` and `tx_pos` that is not a valid UTXO. -/
def Malformed (ext : Ext) (v : UnspentVar) : Prop :=
  v.mapIsEmpty = true ∨ v.tx_pos = none ∨ v.height = none ∨ v.value = none ∨
    ∃ pos, v.tx_pos = some pos ∧ ext.utxoIsValid v.tx_hash pos = false

/-- A well-formed output record `{tx_hash, tx_pos, height, value}`. -/
structure Output where
  tx_hash : String
  tx_pos : Nat
  height : Int
  value : Nat
deriving DecidableEq, Repr

/-- The key of an output in the amount maps. -/
def Output.key (o : Output) : UTXO := (o.tx_hash, o.tx_pos)

/-- The list element that carries a well-formed output record: a non-empty map on which
every conversion succeeds. -/
def Output.toVar (o : Output) : UnspentVar :=
  { mapIsEmpty := false, tx_hash := o.tx_hash, tx_pos := some o.tx_pos,
    height := some o.height, value := some o.value }

/-! ## `EXMgr::pick` (lines 179-204) -/

/-- How a call of `pick` ends: the `InternalError` of lines 182-186, the `Q_ASSERT` of
line 197 failing in a build that checks assertions, the dereference of a null `client` in
line 198 in a build that does not, or a normal return of a client or of `nullptr`. -/
inductive PickOutcome where
  | threw
  | assertFailed
  | nullDeref
  | returned (client : Option EXClient)
deriving DecidableEq, Repr

/-- The loop of lines 195-202 over the shuffled ids. `clientsById[clientId]` is a null
pointer when the table has no entry for the id. `checked` says whether `Q_ASSERT` is
compiled in. -/
def pickLoop (checked : Bool) (mgr : EXMgr) : List ClientId → EXMgr × PickOutcome
  | [] => (mgr, PickOutcome.returned none)
  | clientId :: rest =>
    match tableGet mgr.clientsById clientId with
    | none => (mgr, if checked then PickOutcome.assertFailed else PickOutcome.nullDeref)
    | some client =>
      if checked = true ∧ client.id ≠ clientId then (mgr, PickOutcome.assertFailed)
      else if client.status = Status.Connected then
        ({ mgr with recentPicks := setInsert mgr.recentPicks client.id },
         PickOutcome.returned (some client))
      else pickLoop checked mgr rest

/-- The method `pick`. `shuffle` is the outcome of `Util::shuffle` on the vector built from
`unpicked`; `inMainThread` is the test of line 182. -/
def pick (shuffle : List ClientId → List ClientId) (inMainThread checked : Bool)
    (mgr : EXMgr) : EXMgr × PickOutcome :=
  if inMainThread = false then (mgr, PickOutcome.threw)
  else
    let unpicked := setDiff mgr.height.seenBy mgr.recentPicks
    if unpicked.isEmpty then
      let mgr1 : EXMgr := { mgr with recentPicks := [] }
      pickLoop checked mgr1 (shuffle (setDiff mgr1.height.seenBy mgr1.recentPicks))
    else pickLoop checked mgr (shuffle unpicked)

/-- A shuffle rearranges its argument. -/
def IsShuffle (shuffle : List ClientId → List ClientId) : Prop :=
  ∀ l, (shuffle l).Perm l

/-- Consecutive calls of `pick` from the main thread, one shuffle per call, with nothing
else happening in between: the final state and the outcomes in order. -/
def pickSeq (checked : Bool) (mgr : EXMgr) :
    List (List ClientId → List ClientId) → EXMgr × List PickOutcome
  | [] => (mgr, [])
  | sh :: rest =>
    let r := pick sh true checked mgr
    let q := pickSeq checked r.1 rest
    (q.1, r.2 :: q.2)

/-- Every id in `seenBy` maps in `clientsById` to the client with that id: the condition
asserted in line 197. -/
def SeenByMapped (mgr : EXMgr) : Prop :=
  ∀ id ∈ mgr.height.seenBy, ∃ c, tableGet mgr.clientsById id = some c ∧ c.id = id

/-- Every peer in `seenBy` is registered under its id and is in the Connected status. -/
def SeenByConnected (mgr : EXMgr) : Prop :=
  ∀ id ∈ mgr.height.seenBy,
    ∃ c, tableGet mgr.clientsById id = some c ∧ c.id = id ∧ c.status = Status.Connected

/-! ## `BitcoinDMgr::startup`: the handlers of `authenticated` and `lostConnection`
(BitcoinD.cpp, lines 24-48) -/

/-- The constant `miniTimeout` of line 17, in milliseconds. -/
def miniTimeout : Nat := 333

/-- The state of a `BitcoinDMgr` that the two handlers touch: the set `goodBitcoinDs`, and
the timer named "checkNoMoreBitcoinDs", which is `some t` while it is pending with
timeout `t`. -/
structure BitcoinDMgr where
  goodBitcoinDs : List ClientId
  chkTimer : Option Nat
deriving DecidableEq, Repr

/-- The signals of `BitcoinDMgr`. -/
inductive DSignal where
  | gotFirstGoodConnection (id : ClientId)
  | allConnectionsLost
deriving DecidableEq, Repr

/-- The steps of the manager. `isGood` is what the guarded call
`CallOnObjectWithTimeoutNoThrow(miniTimeout, obj, isGood).value_or(false)` returns when the
handler runs. `timerExpired` is the pending timer firing. -/
inductive DEvent where
  | authenticated (id : ClientId) (isGood : Bool)
  | lostConnection (id : ClientId) (isGood : Bool)
  | timerExpired
deriving DecidableEq, Repr

/-- The handler of `authenticated`, lines 24-34. -/
def onAuthenticated (s : BitcoinDMgr) (id : ClientId) (isGood : Bool) :
    BitcoinDMgr × List DSignal :=
  if isGood = false then (s, [])
  else
    let wasEmpty := s.goodBitcoinDs.isEmpty
    ({ s with goodBitcoinDs := setInsert s.goodBitcoinDs id },
     if wasEmpty then [DSignal.gotFirstGoodConnection id] else [])

/-- Modelled from the spec: `callOnTimerSoonNoRepeat(ms, name, fn, true)` is declared in
Mixins.h, which is not among the sources. By the spec it "arms a short single-shot debounce
timer" with "a single pending timer handle per debounce key", restarted when it is already
pending: after the call exactly one timer of that name is pending, with timeout `ms`. -/
def callOnTimerSoonNoRepeat (ms : Nat) (_pending : Option Nat) : Option Nat :=
  some ms

/-- The handler of `lostConnection`, lines 35-48: a signal from a connection that is good
again is dropped; otherwise the id leaves `goodBitcoinDs` and the check timer is armed. -/
def onLostConnectionD (s : BitcoinDMgr) (id : ClientId) (isGood : Bool) :
    BitcoinDMgr × List DSignal :=
  if isGood = true then (s, [])
  else
    ({ goodBitcoinDs := setRemove s.goodBitcoinDs id,
       chkTimer := callOnTimerSoonNoRepeat miniTimeout s.chkTimer }, [])

/-- The pending check timer fires: it is single-shot, so it is no longer pending, and the
callback of lines 44-47 runs. Nothing happens when no timer is pending. -/
def onChkTimer (s : BitcoinDMgr) : BitcoinDMgr × List DSignal :=
  match s.chkTimer with
  | none => (s, [])
  | some _ =>
    ({ s with chkTimer := none },
     if s.goodBitcoinDs.isEmpty then [DSignal.allConnectionsLost] else [])

/-- One step of the manager. -/
def dStep (s : BitcoinDMgr) : DEvent → BitcoinDMgr × List DSignal
  | DEvent.authenticated id g => onAuthenticated s id g
  | DEvent.lostConnection id g => onLostConnectionD s id g
  | DEvent.timerExpired => onChkTimer s

/-- A sequence of steps: the final state and the signals emitted, in order. -/
def dRun (s : BitcoinDMgr) : List DEvent → BitcoinDMgr × List DSignal
  | [] => (s, [])
  | e :: rest =>
    let r := dStep s e
    let q := dRun r.1 rest
    (q.1, r.2 ++ q.2)

/-- The connections with the given ids are lost, one after the other, each still not good
when its signal is handled. -/
def lostAll (ids : List ClientId) : List DEvent :=
  ids.map (fun i => DEvent.lostConnection i false)

/-! ## `EXMgr::checkClients` (lines 145-177) -/

/-- The constant `AbstractConnection::reconnectTime` (AbstractConnection.h, line 55), in
milliseconds; `checkClients` reads it as `EXClient::reconnectTime`. -/
def reconnectTime : Int := 2 * 60 * 1000

/-- The constant `bad_timeout` of line 147. -/
def bad_timeout : Int := 15 * 60 * 1000

/-- The interval of `checkClientsTimer`, set once in `loadServers` (line 69) by
`checkClientsTimer->start(EXClient::reconnectTime/2)`. -/
def checkClientsInterval : Int := reconnectTime / 2

/-- The constant `low_server_timeout` of line 148: `checkClientsTimer->interval()/2`. -/
def low_server_timeout : Int := checkClientsInterval / 2

/-- Code of the repository that `checkClients` calls and that is not among the sources: the
bodies of the virtual `isGood()` and `isStale()` (declared in AbstractConnection.h, lines
21-24; `isStale` reads the clock, here the time `now` of the iteration) and
`Info::isValid()` (EXClient.h). One iteration of the loop is taken as a snapshot: the two
calls of `isGood()` and the two calls of `isStale()` in it return the same value. -/
structure ConnExt where
  isGood : EXClient → Bool
  isStale : EXClient → Int → Bool
  infoIsValid : Info → Bool

/-- The method `isBad()` (AbstractConnection.h, line 26): `status == Bad`. -/
def EXClient.isBad (c : EXClient) : Bool :=
  decide (c.status = Status.Bad)

/-- The value `stale_timeout` of lines 150-151: the low-server timeout when nobody confirms
the tip, the reconnect time otherwise. -/
def stale_timeout (mgr : EXMgr) : Int :=
  if mgr.height.seenBy.length = 0 then low_server_timeout else reconnectTime

/-- The value a `qint64` holds after an arithmetic result `x`: `x` itself when it is in
the range of `qint64`, and its two's-complement wrap-around otherwise. -/
def wrapInt64 (x : Int) : Int :=
  (x + 2 ^ 63) % 2 ^ 64 - 2 ^ 63

/-- The value `elapsed` of line 161: `qMin` of the two `qint64` differences. -/
def elapsed (client : EXClient) (now : Int) : Int :=
  min (wrapInt64 (now - client.lastConnectionAttempt)) (wrapInt64 (now - client.lastGood))

/-- The two subtractions of line 161 stay within the range of `qint64`. -/
def NoOverflow (client : EXClient) (now : Int) : Prop :=
  -(2 ^ 63) ≤ now - client.lastConnectionAttempt ∧
  now - client.lastConnectionAttempt < 2 ^ 63 ∧
  -(2 ^ 63) ≤ now - client.lastGood ∧ now - client.lastGood < 2 ^ 63

/-- A value of `Util::getTime()`: a `qint64` number of milliseconds that is not negative. -/
def IsTimestamp (t : Int) : Prop :=
  0 ≤ t ∧ t < 2 ^ 63

/-- What one iteration of the loop of lines 153-172 does with a client: skip it (noting
whether it lags), restart it in one of the three branches, or leave it alone. -/
inductive SweepAction where
  | skipped (lagging : Bool)
  | restartBad
  | restartStale
  | retry
  | left
deriving DecidableEq, Repr

/-- One iteration of the loop of lines 153-172, at the time `now` read in line 154. -/
def checkClient (cx : ConnExt) (mgr : EXMgr) (client : EXClient) (now : Int) : SweepAction :=
  let lagging := decide (client.info.height < mgr.height.height) && cx.infoIsValid client.info
  if cx.isGood client = true ∧ cx.isStale client now = false then SweepAction.skipped lagging
  else if client.isBad = true ∧ elapsed client now > bad_timeout then SweepAction.restartBad
  else if cx.isStale client now = true ∧ elapsed client now > stale_timeout mgr then
    SweepAction.restartStale
  else if cx.isGood client = false ∧ elapsed client now > stale_timeout mgr then
    SweepAction.retry
  else SweepAction.left

/-- Whether the iteration called `client->restart()`. -/
def SweepAction.restarted : SweepAction → Bool
  | SweepAction.restartBad => true
  | SweepAction.restartStale => true
  | SweepAction.retry => true
  | _ => false

/-- The restart decision of `checkClients` for one client. -/
def restarts (cx : ConnExt) (mgr : EXMgr) (client : EXClient) (now : Int) : Bool :=
  (checkClient cx mgr client now).restarted

/-- The outcome of a sweep: the clients restarted, in order, and the entries of
`laggers` (host and reported height) that go into the summary line of line 175. -/
structure SweepResult where
  restartedClients : List EXClient
  laggers : List (String × Int)
deriving DecidableEq, Repr

/-- The slot `checkClients`: the loop over `clients`; `now` gives the time read in the
iteration of each client. -/
def checkClients (cx : ConnExt) (mgr : EXMgr) (now : EXClient → Int) : SweepResult :=
  { restartedClients := mgr.clients.filter (fun c => restarts cx mgr c (now c)),
    laggers :=
      (mgr.clients.filter
        (fun c => decide (checkClient cx mgr c (now c) = SweepAction.skipped true))).map
        (fun c => (c.host, c.info.height)) }

/-- The staleness tolerance in the words of the claims: 30 000 ms when `seenBy` is empty
(low-confirmation mode), 120 000 ms otherwise. -/
def stalenessTolerance (mgr : EXMgr) : Int :=
  if mgr.height.seenBy = [] then 30000 else 120000

/-- The restart rule in the words of the claim that the bad-timeout is redundant: a peer is
restarted when it is not (good and not stale) and the time since the later of its last
connection attempt and its last good traffic exceeds the staleness tolerance. -/
def simplerRestart (cx : ConnExt) (mgr : EXMgr) (client : EXClient) (now : Int) : Bool :=
  decide (¬ (cx.isGood client = true ∧ cx.isStale client now = false) ∧
    now - max client.lastConnectionAttempt client.lastGood > stalenessTolerance mgr)

/-! ## Example inputs -/

/-- A stand-in for the two external validity tests, used in the examples. -/
def extEx : Ext :=
  { pendIsValid := fun p => decide (0 < p.ts), utxoIsValid := fun h _ => decide (h ≠ "") }

/-- A peer with the given id and status. -/
def mkClient (i : ClientId) (st : Status) : EXClient :=
  { id := i, host := "peer", status := st, lastGood := 0, lastConnectionAttempt := 0,
    info := { serverVersion := ("", ""), height := 0, header := "" } }

/-- Peer `i` reports height `h` with header `hdr`. -/
def headerReport (i : ClientId) (h : Int) (hdr : String) : MgrEvent :=
  MgrEvent.message (mkClient i Status.Connected)
    { method := "blockchain.headers.subscribe", id := 0, isResult := false, json := "",
      versionList := [], headerHeight := h, headerHex := hdr, unspentList := [] } 0

/-- The height of the last report of peer `p` in a sequence of events, if it reported at
all (the words of the specification: "the peers whose last reported height ..."). -/
def lastReported (evs : List MgrEvent) (p : ClientId) : Option Int :=
  (evs.reverse.find? (fun e => decide (e.peer = p))).map MgrEvent.ht

/-- Three peers report 100, 102 and 102. -/
def threeReports : List MgrEvent :=
  [headerReport 1 100 "aa", headerReport 2 102 "bb", headerReport 3 102 "cc"]

/-- Peer 1 reports 100 and then 90. -/
def fallingReports : List MgrEvent :=
  [headerReport 1 100 "aa", headerReport 1 90 "bb"]

/-- Peer 1 reports height 100 twice. -/
def repeatedReports : List MgrEvent :=
  [headerReport 1 100 "aa", headerReport 1 100 "aa"]

/-- Peer 1 reports height 100, loses its connection, and peer 2 reports height 100. -/
def reportsAroundLoss : List MgrEvent :=
  [headerReport 1 100 "aa", MgrEvent.lostConnection (mkClient 1 Status.NotConnected),
   headerReport 2 100 "aa"]

/-- A manager whose peers are `cs`, all of them confirming the tip at height 100. -/
def mgrSeenBy (cs : List EXClient) (recent : List ClientId) : EXMgr :=
  { clients := cs, clientsById := cs.map (fun c => (c.id, c)),
    height := { height := 100, ts := 0, header := "aa", seenBy := cs.map (fun c => c.id) },
    recentPicks := recent, pendingListUnspentReqs := [] }

/-- Three connected peers 1, 2 and 3. -/
def threePeers : List EXClient :=
  [mkClient 1 Status.Connected, mkClient 2 Status.Connected, mkClient 3 Status.Connected]

/-- The shuffles of three consecutive calls of `pick`. -/
def exampleShuffles : List (List ClientId → List ClientId) :=
  [id, List.reverse, id]

/-- A manager with one pending address query, request id 7, sent to peer 1 at time 5. -/
def mgrPending : EXMgr :=
  { clients := [], clientsById := [], height := HeightRecord.initial, recentPicks := [],
    pendingListUnspentReqs := [(7, { address := { text := "addr" }, ts := 5, clientId := 1 })] }

/-- A result message for `blockchain.scripthash.listunspent` with the given id and list. -/
def unspentResult (id : Int) (l : List UnspentVar) : Message :=
  { method := "blockchain.scripthash.listunspent", id := id, isResult := true, json := "json",
    versionList := [], headerHeight := 0, headerHex := "", unspentList := l }

/-- A list element that is an empty map, or not a map at all. -/
def emptyMapVar : UnspentVar :=
  { mapIsEmpty := true, tx_hash := "", tx_pos := none, height := none, value := none }

/-- A list element whose `tx_pos` is not an unsigned integer. -/
def badPosVar : UnspentVar :=
  { mapIsEmpty := false, tx_hash := "bb", tx_pos := none, height := some 1, value := some 1 }

/-- Three well-formed outputs: one confirmed at height 5, two unconfirmed. -/
def exampleOutputs : List Output :=
  [{ tx_hash := "aa", tx_pos := 0, height := 5, value := 10 },
   { tx_hash := "aa", tx_pos := 1, height := 0, value := 20 },
   { tx_hash := "bb", tx_pos := 1, height := -1, value := 30 }]

/-- A daemon pool manager whose three clients 1, 2 and 3 are good, no timer pending. -/
def threeGood : BitcoinDMgr :=
  { goodBitcoinDs := [1, 2, 3], chkTimer := none }

/-- A stand-in for the connection tests, after their contract in the specification: good is
Connected, stale is more than the stale threshold (the reconnect time) since the last good
traffic, an info is valid once a height was reported. -/
def connEx : ConnExt :=
  { isGood := fun c => decide (c.status = Status.Connected),
    isStale := fun c now => decide (now - c.lastGood > reconnectTime),
    infoIsValid := fun i => decide (0 < i.height) }

/-- A manager in which peer 1 is Connected, peer 2 is not, both confirm the tip, and peer 1
was picked recently. -/
def mgrStarved : EXMgr :=
  mgrSeenBy [mkClient 1 Status.Connected, mkClient 2 Status.NotConnected] [1]

/-- A peer whose last good traffic carries the smallest `qint64` as its timestamp and whose
last connection attempt was at 800 000 ms. -/
def clientMinInt : EXClient :=
  { id := 5, host := "peer", status := Status.NotConnected, lastGood := -(2 ^ 63),
    lastConnectionAttempt := 800000,
    info := { serverVersion := ("", ""), height := 0, header := "" } }

/-! # Theorems -/

/-! ## Height consensus -/

theorem setInsert_nil (x : ClientId) : setInsert [] x = [x] := by
  simp [setInsert]

theorem mem_setInsert (s : List ClientId) (x y : ClientId) :
    y ∈ setInsert s x ↔ y = x ∨ y ∈ s := by
  unfold setInsert
  by_cases h : x ∈ s
  · simp only [h, if_true]
    constructor
    · intro hy; exact Or.inr hy
    · rintro (rfl | hy)
      · exact h
      · exact hy
  · simp only [h, if_false, List.mem_append, List.mem_singleton]
    tauto

theorem runEvents_append (ext : Ext) (mgr : EXMgr) (l1 l2 : List MgrEvent) :
    runEvents ext mgr (l1 ++ l2) =
      ((runEvents ext (runEvents ext mgr l1).1 l2).1,
       (runEvents ext mgr l1).2 ++ (runEvents ext (runEvents ext mgr l1).1 l2).2) := by
  induction l1 generalizing mgr with
  | nil => simp [runEvents]
  | cons e rest ih => simp [runEvents, ih, List.append_assoc]

theorem runEvents_snoc_state (ext : Ext) (mgr : EXMgr) (l : List MgrEvent) (e : MgrEvent) :
    (runEvents ext mgr (l ++ [e])).1 = (stepEvent ext (runEvents ext mgr l).1 e).1 := by
  rw [runEvents_append]
  simp [runEvents]

/-- The effect of one valid header report on the record. -/
theorem stepEvent_valid (ext : Ext) (mgr : EXMgr) (e : MgrEvent) (hv : validReport e) :
    (stepEvent ext mgr e).1.height.height = max mgr.height.height e.ht ∧
    (stepEvent ext mgr e).1.height.header =
      (if e.ht > mgr.height.height then e.hdr else mgr.height.header) ∧
    (stepEvent ext mgr e).1.height.seenBy =
      (if e.ht > mgr.height.height then [e.peer]
       else if e.ht = mgr.height.height then setInsert mgr.height.seenBy e.peer
       else mgr.height.seenBy) := by
  cases e with
  | lostConnection c => exact absurd hv (by simp [validReport])
  | message c m now =>
    obtain ⟨hm, hpos, hhdr⟩ := hv
    have hne : ¬ ("blockchain.headers.subscribe" = "server.version") := by decide
    simp only [stepEvent, onMessage, hm, hne, if_false, if_true, onHeaders, MgrEvent.ht,
      MgrEvent.hdr, MgrEvent.peer]
    have hc : m.headerHeight > 0 ∧ m.headerHex ≠ "" := ⟨hpos, hhdr⟩
    rw [if_pos hc]
    by_cases hgt : m.headerHeight > mgr.height.height
    · simp only [hgt, if_true, setInsert_nil]
      refine ⟨?_, trivial, trivial⟩
      exact (max_eq_right (le_of_lt hgt)).symm
    · simp only [hgt, if_false]
      by_cases heq : m.headerHeight = mgr.height.height
      · simp only [heq, if_true]
        refine ⟨?_, trivial, trivial⟩
        simp
      · simp only [heq, if_false]
        refine ⟨?_, trivial, trivial⟩
        exact (max_eq_left (le_of_not_lt hgt)).symm

/-- The invariant of the record along a sequence of valid reports from the initial record:
the height bounds every report, the header came with the first report of that height, and
`seenBy` holds the peers that reported that height. -/
theorem headers_invariant (ext : Ext) (mgr0 : EXMgr) (h0 : mgr0.height = HeightRecord.initial)
    (evs : List MgrEvent) (hv : ∀ e ∈ evs, validReport e) :
    (∀ e ∈ evs, e.ht ≤ (runEvents ext mgr0 evs).1.height.height) ∧
    (evs ≠ [] → ∃ pre e post, evs = pre ++ e :: post ∧
        e.ht = (runEvents ext mgr0 evs).1.height.height ∧
        (∀ x ∈ pre, x.ht < (runEvents ext mgr0 evs).1.height.height) ∧
        (runEvents ext mgr0 evs).1.height.header = e.hdr) ∧
    (∀ p, p ∈ (runEvents ext mgr0 evs).1.height.seenBy ↔
        ∃ x ∈ evs, x.peer = p ∧ x.ht = (runEvents ext mgr0 evs).1.height.height) := by
  induction evs using List.reverseRecOn with
  | nil =>
    refine ⟨by simp, by simp, ?_⟩
    intro p
    simp [runEvents, h0, HeightRecord.initial]
  | append_singleton l a ih =>
    have hvl : ∀ e ∈ l, validReport e := fun e he => hv e (List.mem_append_left _ he)
    have hva : validReport a := hv a (by simp)
    obtain ⟨ihA, ihC, ihD⟩ := ih hvl
    obtain ⟨sH, sHdr, sSeen⟩ := stepEvent_valid ext (runEvents ext mgr0 l).1 a hva
    rw [runEvents_snoc_state]
    have hapos : 0 < a.ht := by
      cases a with
      | lostConnection c => exact absurd hva (by simp [validReport])
      | message c m now => exact hva.2.1
    have hl0 : l = [] → (runEvents ext mgr0 l).1.height.height = 0 := by
      intro hl
      subst hl
      simp [runEvents, h0, HeightRecord.initial]
    refine ⟨?_, ?_, ?_⟩
    · intro e he
      rw [sH]
      rcases List.mem_append.1 he with he | he
      · exact le_trans (ihA e he) (le_max_left _ _)
      · rw [List.mem_singleton.1 he]
        exact le_max_right _ _
    · intro _
      by_cases hgt : a.ht > (runEvents ext mgr0 l).1.height.height
      · refine ⟨l, a, [], rfl, ?_, ?_, ?_⟩
        · rw [sH]; exact (max_eq_right (le_of_lt hgt)).symm
        · intro x hx
          rw [sH, max_eq_right (le_of_lt hgt)]
          exact lt_of_le_of_lt (ihA x hx) hgt
        · rw [sHdr, if_pos hgt]
      · have hle : a.ht ≤ (runEvents ext mgr0 l).1.height.height := le_of_not_lt hgt
        have hlne : l ≠ [] := by
          intro hl
          have := hl0 hl
          omega
        obtain ⟨pre, e, post, hdec, heq, hpre, hhdr⟩ := ihC hlne
        refine ⟨pre, e, post ++ [a], ?_, ?_, ?_, ?_⟩
        · rw [hdec]; simp
        · rw [sH, max_eq_left hle]; exact heq
        · intro x hx
          rw [sH, max_eq_left hle]
          exact hpre x hx
        · rw [sHdr, if_neg hgt]; exact hhdr
    · intro p
      rw [sSeen, sH]
      by_cases hgt : a.ht > (runEvents ext mgr0 l).1.height.height
      · rw [if_pos hgt, max_eq_right (le_of_lt hgt)]
        constructor
        · intro hp
          refine ⟨a, by simp, ?_, rfl⟩
          exact (List.mem_singleton.1 hp).symm
        · rintro ⟨x, hx, hxp, hxh⟩
          rcases List.mem_append.1 hx with hx | hx
          · have := ihA x hx
            omega
          · rw [List.mem_singleton.1 hx] at hxp
            rw [← hxp]
            exact List.mem_singleton.2 rfl
      · have hle : a.ht ≤ (runEvents ext mgr0 l).1.height.height := le_of_not_lt hgt
        rw [if_neg hgt, max_eq_left hle]
        by_cases heq : a.ht = (runEvents ext mgr0 l).1.height.height
        · rw [if_pos heq, mem_setInsert, ihD p]
          constructor
          · rintro (hp | ⟨x, hx, hxp, hxh⟩)
            · exact ⟨a, by simp, hp.symm, heq⟩
            · exact ⟨x, List.mem_append_left _ hx, hxp, hxh⟩
          · rintro ⟨x, hx, hxp, hxh⟩
            rcases List.mem_append.1 hx with hx | hx
            · exact Or.inr ⟨x, hx, hxp, hxh⟩
            · rw [List.mem_singleton.1 hx] at hxp
              exact Or.inl hxp.symm
        · rw [if_neg heq, ihD p]
          constructor
          · rintro ⟨x, hx, hxp, hxh⟩
            exact ⟨x, List.mem_append_left _ hx, hxp, hxh⟩
          · rintro ⟨x, hx, hxp, hxh⟩
            rcases List.mem_append.1 hx with hx | hx
            · exact ⟨x, hx, hxp, hxh⟩
            · rw [List.mem_singleton.1 hx] at hxh
              exact absurd hxh heq

theorem validReport_headerReport (i : ClientId) (h : Int) (hdr : String) (hh : 0 < h)
    (hne : hdr ≠ "") : validReport (headerReport i h hdr) :=
  ⟨rfl, hh, hne⟩

theorem lastReported_mem (evs : List MgrEvent) (p : ClientId) (h : Int)
    (hl : lastReported evs p = some h) : ∃ x ∈ evs, x.peer = p ∧ x.ht = h := by
  unfold lastReported at hl
  rw [Option.map_eq_some'] at hl
  obtain ⟨x, hx, hxh⟩ := hl
  refine ⟨x, ?_, ?_, hxh⟩
  · exact List.mem_reverse.1 (List.mem_of_find?_eq_some hx)
  · have := List.find?_some hx
    simpa using this

/-- C1. Height consensus: from the initial record, after any non-empty sequence of valid
header reports handled by `onMessage`, the record height is the maximum of the reported
heights (it bounds every report and is the height of one of them), and the record header is
the header of the first report that carried that maximum. -/
theorem height_consensus (ext : Ext) (mgr0 : EXMgr) (evs : List MgrEvent)
    (h0 : mgr0.height = HeightRecord.initial) (hne : evs ≠ [])
    (hv : ∀ e ∈ evs, validReport e) :
    (evs.map MgrEvent.ht).maximum = ((runEvents ext mgr0 evs).1.height.height : WithBot Int) ∧
    (∀ e ∈ evs, e.ht ≤ (runEvents ext mgr0 evs).1.height.height) ∧
    ∃ pre e post, evs = pre ++ e :: post ∧
      e.ht = (runEvents ext mgr0 evs).1.height.height ∧
      (∀ x ∈ pre, x.ht < (runEvents ext mgr0 evs).1.height.height) ∧
      (runEvents ext mgr0 evs).1.height.header = e.hdr := by
  obtain ⟨hA, hC, _⟩ := headers_invariant ext mgr0 h0 evs hv
  refine ⟨?_, hA, hC hne⟩
  obtain ⟨pre, e, post, hdec, heq, _, _⟩ := hC hne
  rw [List.maximum_eq_coe_iff]
  constructor
  · rw [List.mem_map]
    exact ⟨e, by rw [hdec]; simp, heq⟩
  · intro a ha
    obtain ⟨x, hx, rfl⟩ := List.mem_map.1 ha
    exact hA x hx

/-- C1, the example of the specification: peers 1, 2, 3 report 100, 102, 102; the record
height is 102 and the header is the one peer 2 sent. -/
theorem height_consensus_witness :
    (runEvents extEx (freshMgr []) threeReports).1.height.height = 102 ∧
    (runEvents extEx (freshMgr []) threeReports).1.height.header = "bb" ∧
    ((threeReports.map MgrEvent.ht).maximum =
        ((runEvents extEx (freshMgr []) threeReports).1.height.height : WithBot Int) ∧
      (∀ e ∈ threeReports,
        e.ht ≤ (runEvents extEx (freshMgr []) threeReports).1.height.height) ∧
      ∃ pre e post, threeReports = pre ++ e :: post ∧
        e.ht = (runEvents extEx (freshMgr []) threeReports).1.height.height ∧
        (∀ x ∈ pre, x.ht < (runEvents extEx (freshMgr []) threeReports).1.height.height) ∧
        (runEvents extEx (freshMgr []) threeReports).1.height.header = e.hdr) :=
  ⟨by decide, by decide,
   height_consensus extEx (freshMgr []) threeReports rfl (by simp [threeReports])
    (by
      intro e he
      simp only [threeReports, List.mem_cons, List.mem_singleton, List.not_mem_nil,
        or_false] at he
      rcases he with rfl | rfl | rfl <;>
        exact validReport_headerReport _ _ _ (by decide) (by decide))⟩

/-- C2, as stated, fails: peer 1 reports 100 and then 90. Both reports are valid, the record
height stays 100, the last height peer 1 reported is 90, and peer 1 is still in `seenBy`. -/
theorem seenBy_last_report_counterexample :
    (∀ e ∈ fallingReports, validReport e) ∧
    (runEvents extEx (freshMgr []) fallingReports).1.height.height = 100 ∧
    lastReported fallingReports 1 = some 90 ∧
    (1 : ClientId) ∈ (runEvents extEx (freshMgr []) fallingReports).1.height.seenBy ∧
    ¬ ((1 : ClientId) ∈ (runEvents extEx (freshMgr []) fallingReports).1.height.seenBy ↔
        lastReported fallingReports 1 =
          some (runEvents extEx (freshMgr []) fallingReports).1.height.height) := by
  refine ⟨?_, by decide, by decide, by decide, by decide⟩
  intro e he
  simp only [fallingReports, List.mem_cons, List.mem_singleton, List.not_mem_nil,
    or_false] at he
  rcases he with rfl | rfl <;>
    exact validReport_headerReport _ _ _ (by decide) (by decide)

/-- C2, amended: from the initial record, after any sequence of valid header reports (and no
lost connection), `seenBy` holds exactly the peers that reported the maximum height in some
report; in particular every peer whose last report carried the maximum is in `seenBy`. -/
theorem seenBy_reported_maximum (ext : Ext) (mgr0 : EXMgr) (evs : List MgrEvent)
    (h0 : mgr0.height = HeightRecord.initial) (hv : ∀ e ∈ evs, validReport e) :
    (∀ p, p ∈ (runEvents ext mgr0 evs).1.height.seenBy ↔
        ∃ x ∈ evs, x.peer = p ∧ x.ht = (runEvents ext mgr0 evs).1.height.height) ∧
    (∀ p, lastReported evs p = some (runEvents ext mgr0 evs).1.height.height →
        p ∈ (runEvents ext mgr0 evs).1.height.seenBy) := by
  obtain ⟨_, _, hD⟩ := headers_invariant ext mgr0 h0 evs hv
  refine ⟨hD, ?_⟩
  intro p hp
  exact (hD p).2 (lastReported_mem evs p _ hp)

/-- C2, amended, on the example of the specification: after the reports 100, 102, 102 of
peers 1, 2, 3, `seenBy` is the set of peers 2 and 3. -/
theorem seenBy_reported_maximum_witness :
    (runEvents extEx (freshMgr []) threeReports).1.height.seenBy = [2, 3] ∧
    ((∀ p, p ∈ (runEvents extEx (freshMgr []) threeReports).1.height.seenBy ↔
        ∃ x ∈ threeReports, x.peer = p ∧
          x.ht = (runEvents extEx (freshMgr []) threeReports).1.height.height) ∧
     (∀ p, lastReported threeReports p =
          some (runEvents extEx (freshMgr []) threeReports).1.height.height →
        p ∈ (runEvents extEx (freshMgr []) threeReports).1.height.seenBy)) :=
  ⟨by decide,
   seenBy_reported_maximum extEx (freshMgr []) threeReports rfl
    (by
      intro e he
      simp only [threeReports, List.mem_cons, List.mem_singleton, List.not_mem_nil,
        or_false] at he
      rcases he with rfl | rfl | rfl <;>
        exact validReport_headerReport _ _ _ (by decide) (by decide))⟩

/-- C3, the code at the failing inputs: when peer 1 reports height 100 twice, and when peer 1
reports 100, loses its connection and peer 2 reports 100, `gotNewBlockHeight(100)` is emitted
twice, although 100 became the record height once. -/
theorem newBlockHeight_emitted_twice :
    (runEvents extEx (freshMgr []) repeatedReports).2 =
      [Signal.gotNewBlockHeight 100, Signal.gotNewBlockHeight 100] ∧
    (runEvents extEx (freshMgr []) reportsAroundLoss).2 =
      [Signal.gotNewBlockHeight 100, Signal.gotNewBlockHeight 100] := by
  constructor <;> decide

/-! ## `seenBy` is a set -/

theorem setInsert_nodup (s : List ClientId) (x : ClientId) (h : s.Nodup) :
    (setInsert s x).Nodup := by
  unfold setInsert
  by_cases hx : x ∈ s
  · simpa [hx] using h
  · simp only [hx, if_false]
    rw [List.nodup_append]
    refine ⟨h, List.nodup_singleton x, ?_⟩
    intro a ha hb
    rw [List.mem_singleton] at hb
    subst hb
    exact hx ha

theorem processListUnspentResults_height (ext : Ext) (mgr : EXMgr) (client : EXClient)
    (m : Message) (now : Int) :
    (processListUnspentResults ext mgr client m now).1.height = mgr.height := by
  unfold processListUnspentResults
  dsimp only
  split <;> rfl

theorem onHeaders_seenBy_nodup (mgr : EXMgr) (c : EXClient) (m : Message) (now : Int)
    (h : mgr.height.seenBy.Nodup) : (onHeaders mgr c m now).1.height.seenBy.Nodup := by
  unfold onHeaders
  dsimp only
  by_cases hv : m.headerHeight > 0 ∧ m.headerHex ≠ ""
  · rw [if_pos hv]
    dsimp only
    by_cases hgt : m.headerHeight > mgr.height.height
    · simp only [hgt, if_true]
      exact setInsert_nodup _ _ List.nodup_nil
    · simp only [hgt, if_false]
      by_cases heq : m.headerHeight = mgr.height.height
      · simp only [heq, if_true]
        exact setInsert_nodup _ _ h
      · simp only [heq, if_false]
        exact h
  · rw [if_neg hv]
    exact h

/-- No event handled by the manager puts an id into `seenBy` twice. -/
theorem stepEvent_seenBy_nodup (ext : Ext) (mgr : EXMgr) (e : MgrEvent)
    (h : mgr.height.seenBy.Nodup) : (stepEvent ext mgr e).1.height.seenBy.Nodup := by
  cases e with
  | lostConnection c =>
    simp only [stepEvent, onLostConnection, setRemove]
    exact h.filter _
  | message c m now =>
    simp only [stepEvent, onMessage]
    split_ifs with h1 h2 h3 h4
    · split <;> exact h
    · exact onHeaders_seenBy_nodup mgr c m now h
    · exact h
    · rw [processListUnspentResults_height]
      exact h
    · exact h

/-! ## Fair selection -/

theorem mem_setDiff (a b : List ClientId) (x : ClientId) :
    x ∈ setDiff a b ↔ x ∈ a ∧ x ∉ b := by
  simp [setDiff]

theorem setDiff_nil (a : List ClientId) : setDiff a [] = a := by
  simp [setDiff]

/-- The loop returns only a Connected client registered under one of the ids it was given,
and records it in `recentPicks`. -/
theorem pickLoop_returned (checked : Bool) (mgr mgr1 : EXMgr) (c : EXClient) :
    ∀ ids : List ClientId,
      (∀ id ∈ ids, ∃ d, tableGet mgr.clientsById id = some d ∧ d.id = id) →
      pickLoop checked mgr ids = (mgr1, PickOutcome.returned (some c)) →
      c.status = Status.Connected ∧ c.id ∈ ids ∧
        mgr1 = { mgr with recentPicks := setInsert mgr.recentPicks c.id } := by
  intro ids
  induction ids with
  | nil =>
    intro _ h
    simp [pickLoop] at h
  | cons x rest ih =>
    intro hmap h
    obtain ⟨d, hd, hdx⟩ := hmap x (by simp)
    have hne : ¬ (checked = true ∧ d.id ≠ x) := fun hh => hh.2 hdx
    simp only [pickLoop, hd, hne, if_false] at h
    by_cases hs : d.status = Status.Connected
    · simp only [hs, if_true, Prod.mk.injEq, PickOutcome.returned.injEq,
        Option.some.injEq] at h
      obtain ⟨h1, h2⟩ := h
      subst h2
      refine ⟨hs, ?_, h1.symm⟩
      rw [hdx]
      simp
    · simp only [hs, if_false] at h
      obtain ⟨a, b, e⟩ := ih (fun id hid => hmap id (List.mem_cons_of_mem _ hid)) h
      exact ⟨a, List.mem_cons_of_mem _ b, e⟩

/-- C4. In every manager state in which each id in `seenBy` maps in `clientsById` to the
client with that id, and for every outcome of the shuffle, a peer returned by `pick` is in
the Connected status, its id is in `seenBy` (which `pick` leaves as it was), and its id is in
`recentPicks` afterwards. -/
theorem pick_returns_connected_confirming (shuffle : List ClientId → List ClientId)
    (hsh : IsShuffle shuffle) (inMainThread checked : Bool) (mgr mgr1 : EXMgr)
    (c : EXClient) (hmap : SeenByMapped mgr)
    (hp : pick shuffle inMainThread checked mgr = (mgr1, PickOutcome.returned (some c))) :
    c.status = Status.Connected ∧ c.id ∈ mgr.height.seenBy ∧ c.id ∈ mgr1.recentPicks ∧
      mgr1.height = mgr.height := by
  unfold pick at hp
  cases inMainThread with
  | false => simp at hp
  | true =>
    simp only [Bool.true_eq_false, if_false] at hp
    by_cases hemp : (setDiff mgr.height.seenBy mgr.recentPicks).isEmpty = true
    · simp only [hemp, if_true] at hp
      have hmap1 : ∀ id ∈ shuffle (setDiff mgr.height.seenBy []),
          ∃ d, tableGet mgr.clientsById id = some d ∧ d.id = id := by
        intro id hid
        have := (hsh _).mem_iff.1 hid
        rw [setDiff_nil] at this
        exact hmap id this
      obtain ⟨hs, hmem, hst⟩ :=
        pickLoop_returned checked { mgr with recentPicks := [] } mgr1 c _ hmap1 hp
      have hmem1 := (hsh _).mem_iff.1 hmem
      rw [setDiff_nil] at hmem1
      refine ⟨hs, hmem1, ?_, ?_⟩
      · rw [hst]
        dsimp only
        exact (mem_setInsert _ _ _).2 (Or.inl rfl)
      · rw [hst]
    · simp only [hemp] at hp
      have hmap1 : ∀ id ∈ shuffle (setDiff mgr.height.seenBy mgr.recentPicks),
          ∃ d, tableGet mgr.clientsById id = some d ∧ d.id = id := by
        intro id hid
        have := (hsh _).mem_iff.1 hid
        exact hmap id ((mem_setDiff _ _ _).1 this).1
      obtain ⟨hs, hmem, hst⟩ := pickLoop_returned checked _ mgr1 c _ hmap1 hp
      have hmem1 := ((mem_setDiff _ _ _).1 ((hsh _).mem_iff.1 hmem)).1
      refine ⟨hs, hmem1, ?_, ?_⟩
      · rw [hst]
        dsimp only
        exact (mem_setInsert _ _ _).2 (Or.inl rfl)
      · rw [hst]

theorem isShuffle_reverse : IsShuffle List.reverse :=
  fun l => List.reverse_perm l

theorem isShuffle_id : IsShuffle id :=
  fun l => List.Perm.refl l

theorem seenByConnected_threePeers (recent : List ClientId) :
    SeenByConnected (mgrSeenBy threePeers recent) := by
  intro i hi
  simp only [mgrSeenBy, threePeers, List.map_cons, List.map_nil, List.mem_cons,
    List.mem_singleton, List.not_mem_nil, or_false] at hi
  rcases hi with rfl | rfl | rfl
  · exact ⟨mkClient 1 Status.Connected, rfl, rfl, rfl⟩
  · exact ⟨mkClient 2 Status.Connected, rfl, rfl, rfl⟩
  · exact ⟨mkClient 3 Status.Connected, rfl, rfl, rfl⟩

theorem SeenByConnected.mapped {mgr : EXMgr} (h : SeenByConnected mgr) : SeenByMapped mgr := by
  intro i hi
  obtain ⟨c, h1, h2, _⟩ := h i hi
  exact ⟨c, h1, h2⟩

/-- C4 on an example: peers 1, 2, 3 confirm the tip, the shuffle reverses the candidates, and
`pick` returns peer 3, which is Connected, in `seenBy`, and recorded in `recentPicks`. -/
theorem pick_returns_connected_confirming_witness :
    pick List.reverse true true (mgrSeenBy threePeers []) =
      (mgrSeenBy threePeers [3], PickOutcome.returned (some (mkClient 3 Status.Connected))) ∧
    ((mkClient 3 Status.Connected).status = Status.Connected ∧
      (mkClient 3 Status.Connected).id ∈ (mgrSeenBy threePeers []).height.seenBy ∧
      (mkClient 3 Status.Connected).id ∈ (mgrSeenBy threePeers [3]).recentPicks ∧
      (mgrSeenBy threePeers [3]).height = (mgrSeenBy threePeers []).height) :=
  ⟨by decide,
   pick_returns_connected_confirming List.reverse isShuffle_reverse true true
    (mgrSeenBy threePeers []) (mgrSeenBy threePeers [3]) (mkClient 3 Status.Connected)
    (seenByConnected_threePeers []).mapped (by decide)⟩

theorem pickSeq_append (checked : Bool) (mgr : EXMgr)
    (l1 l2 : List (List ClientId → List ClientId)) :
    pickSeq checked mgr (l1 ++ l2) =
      ((pickSeq checked (pickSeq checked mgr l1).1 l2).1,
       (pickSeq checked mgr l1).2 ++ (pickSeq checked (pickSeq checked mgr l1).1 l2).2) := by
  induction l1 generalizing mgr with
  | nil => simp [pickSeq]
  | cons sh rest ih => simp [pickSeq, ih]

/-- When the first id handed to the loop belongs to a Connected client, the loop returns that
client at once. -/
theorem pickLoop_head (checked : Bool) (mgr : EXMgr) (x : ClientId) (rest : List ClientId)
    (c : EXClient) (hget : tableGet mgr.clientsById x = some c) (hid : c.id = x)
    (hs : c.status = Status.Connected) :
    pickLoop checked mgr (x :: rest) =
      ({ mgr with recentPicks := setInsert mgr.recentPicks c.id },
       PickOutcome.returned (some c)) := by
  have hne : ¬ (checked = true ∧ c.id ≠ x) := fun hh => hh.2 hid
  simp only [pickLoop, hget, hne, if_false, hs, if_true]

theorem setInsert_of_not_mem (s : List ClientId) (x : ClientId) (h : x ∉ s) :
    setInsert s x = s ++ [x] := by
  simp [setInsert, h]

/-- One call of `pick` when every confirming peer is Connected and `seenBy` is not empty:
a peer of `seenBy` is returned; it was not in `recentPicks` unless every confirming peer
was, in which case `recentPicks` starts afresh. -/
theorem pick_connected (sh : List ClientId → List ClientId) (hsh : IsShuffle sh)
    (checked : Bool) (mgr : EXMgr) (hc : SeenByConnected mgr) (hne : mgr.height.seenBy ≠ []) :
    ∃ c : EXClient, c.status = Status.Connected ∧ c.id ∈ mgr.height.seenBy ∧
      ((setDiff mgr.height.seenBy mgr.recentPicks ≠ [] ∧ c.id ∉ mgr.recentPicks ∧
          pick sh true checked mgr =
            ({ mgr with recentPicks := mgr.recentPicks ++ [c.id] },
             PickOutcome.returned (some c))) ∨
       (setDiff mgr.height.seenBy mgr.recentPicks = [] ∧
          pick sh true checked mgr =
            ({ mgr with recentPicks := [c.id] }, PickOutcome.returned (some c)))) := by
  by_cases hemp : setDiff mgr.height.seenBy mgr.recentPicks = []
  · have hsne : sh (setDiff mgr.height.seenBy []) ≠ [] := by
      intro h0
      have := (hsh (setDiff mgr.height.seenBy [])).length_eq
      rw [h0, setDiff_nil] at this
      exact hne (List.length_eq_zero.1 this.symm)
    obtain ⟨x, rest, hx⟩ := List.exists_cons_of_ne_nil hsne
    have hxmem : x ∈ mgr.height.seenBy := by
      have : x ∈ sh (setDiff mgr.height.seenBy []) := by rw [hx]; simp
      have := (hsh _).mem_iff.1 this
      rwa [setDiff_nil] at this
    obtain ⟨c, hget, hid, hs⟩ := hc x hxmem
    refine ⟨c, hs, by rw [hid]; exact hxmem, Or.inr ⟨hemp, ?_⟩⟩
    have hloop := pickLoop_head checked { mgr with recentPicks := [] } x rest c hget hid hs
    simp only [pick, Bool.true_eq_false, if_false, hemp, List.isEmpty_nil, if_true, hx, hloop,
      setInsert_nil]
  · have hsne : sh (setDiff mgr.height.seenBy mgr.recentPicks) ≠ [] := by
      intro h0
      have := (hsh (setDiff mgr.height.seenBy mgr.recentPicks)).length_eq
      rw [h0] at this
      exact hemp (List.length_eq_zero.1 this.symm)
    obtain ⟨x, rest, hx⟩ := List.exists_cons_of_ne_nil hsne
    have hxmem : x ∈ setDiff mgr.height.seenBy mgr.recentPicks := by
      have : x ∈ sh (setDiff mgr.height.seenBy mgr.recentPicks) := by rw [hx]; simp
      exact (hsh _).mem_iff.1 this
    obtain ⟨hxs, hxr⟩ := (mem_setDiff _ _ _).1 hxmem
    obtain ⟨c, hget, hid, hs⟩ := hc x hxs
    refine ⟨c, hs, by rw [hid]; exact hxs, Or.inl ⟨hemp, by rw [hid]; exact hxr, ?_⟩⟩
    have hloop := pickLoop_head checked mgr x rest c hget hid hs
    have hemp2 : (setDiff mgr.height.seenBy mgr.recentPicks).isEmpty = false := by
      cases h : setDiff mgr.height.seenBy mgr.recentPicks with
      | nil => exact absurd h hemp
      | cons a b => rfl
    have hnot : c.id ∉ mgr.recentPicks := by rw [hid]; exact hxr
    simp only [pick, Bool.true_eq_false, if_false, hemp2, hx, hloop,
      setInsert_of_not_mem _ _ hnot]
    simp

/-- While fewer peers have been picked than confirm the tip, consecutive calls of `pick`
return confirming peers that were not picked before. -/
theorem pickSeq_fresh (checked : Bool) :
    ∀ (shs : List (List ClientId → List ClientId)) (mgr : EXMgr),
      SeenByConnected mgr → mgr.height.seenBy.Nodup → mgr.recentPicks.Nodup →
      mgr.recentPicks ⊆ mgr.height.seenBy →
      shs.length + mgr.recentPicks.length ≤ mgr.height.seenBy.length →
      (∀ sh ∈ shs, IsShuffle sh) →
      ∃ cs : List EXClient,
        pickSeq checked mgr shs =
          ({ mgr with recentPicks := mgr.recentPicks ++ cs.map (fun c => c.id) },
           cs.map (fun c => PickOutcome.returned (some c))) ∧
        cs.length = shs.length ∧
        (mgr.recentPicks ++ cs.map (fun c => c.id)).Nodup ∧
        (∀ c ∈ cs, c.id ∈ mgr.height.seenBy ∧ c.status = Status.Connected) := by
  intro shs
  induction shs with
  | nil =>
    intro mgr _ _ hR _ _ _
    exact ⟨[], by simp [pickSeq], rfl, by simpa using hR, by simp⟩
  | cons sh rest ih =>
    intro mgr hc hS hR hsub hlen hsh
    have hdiff : setDiff mgr.height.seenBy mgr.recentPicks ≠ [] := by
      intro h0
      have hsub2 : mgr.height.seenBy ⊆ mgr.recentPicks := by
        intro x hx
        by_contra hxr
        have : x ∈ setDiff mgr.height.seenBy mgr.recentPicks :=
          (mem_setDiff _ _ _).2 ⟨hx, hxr⟩
        rw [h0] at this
        simp at this
      have := (List.subperm_of_subset hS hsub2).length_le
      simp only [List.length_cons] at hlen
      omega
    have hne : mgr.height.seenBy ≠ [] := by
      intro h0
      apply hdiff
      simp [setDiff, h0]
    obtain ⟨c, hcs, hcmem, hcase⟩ :=
      pick_connected sh (hsh sh (by simp)) checked mgr hc hne
    rcases hcase with ⟨_, hcnot, hpick⟩ | ⟨h0, _⟩
    · have hR1 : (mgr.recentPicks ++ [c.id]).Nodup := by
        rw [List.nodup_append]
        refine ⟨hR, by simp, ?_⟩
        intro a ha hb
        rw [List.mem_singleton] at hb
        subst hb
        exact hcnot ha
      have hsub1 : (mgr.recentPicks ++ [c.id]) ⊆ mgr.height.seenBy := by
        intro a ha
        rcases List.mem_append.1 ha with ha | ha
        · exact hsub ha
        · rw [List.mem_singleton.1 ha]; exact hcmem
      have hlen1 : rest.length + (mgr.recentPicks ++ [c.id]).length
          ≤ mgr.height.seenBy.length := by
        simp only [List.length_cons] at hlen
        simp only [List.length_append, List.length_singleton]
        omega
      obtain ⟨cs, hrun, hcl, hnd, hall⟩ :=
        ih { mgr with recentPicks := mgr.recentPicks ++ [c.id] } hc hS hR1 hsub1 hlen1
          (fun s hs => hsh s (List.mem_cons_of_mem _ hs))
      refine ⟨c :: cs, ?_, by simp [hcl], ?_, ?_⟩
      · simp only [pickSeq, hpick, hrun, List.map_cons, List.append_assoc,
          List.singleton_append]
      · simpa [List.append_assoc] using hnd
      · intro d hd
        rcases List.mem_cons.1 hd with rfl | hd
        · exact ⟨hcmem, hcs⟩
        · exact hall d hd
    · exact absurd h0 hdiff

/-- C5. Fair rotation: `seenBy` holds n ≥ 1 distinct peers, each registered under its id and
Connected, and `recentPicks` is empty. Then, whatever the shuffles do, the first n calls of
`pick` return n Connected peers whose ids are a rearrangement of `seenBy` (every confirming
peer exactly once, none twice), and call n + 1 returns a member of `seenBy` again. -/
theorem pick_fair_rotation (checked : Bool) (mgr : EXMgr)
    (shs : List (List ClientId → List ClientId)) (shLast : List ClientId → List ClientId)
    (hc : SeenByConnected mgr) (hS : mgr.height.seenBy.Nodup) (hne : mgr.height.seenBy ≠ [])
    (hR : mgr.recentPicks = []) (hlen : shs.length = mgr.height.seenBy.length)
    (hsh : ∀ sh ∈ shs, IsShuffle sh) (hshLast : IsShuffle shLast) :
    ∃ (cs : List EXClient) (cLast : EXClient),
      (pickSeq checked mgr (shs ++ [shLast])).2 =
        cs.map (fun c => PickOutcome.returned (some c)) ++
          [PickOutcome.returned (some cLast)] ∧
      cs.length = mgr.height.seenBy.length ∧
      (cs.map (fun c => c.id)).Perm mgr.height.seenBy ∧
      (cs.map (fun c => c.id)).Nodup ∧
      (∀ c ∈ cs, c.status = Status.Connected) ∧
      cLast.id ∈ mgr.height.seenBy ∧ cLast.status = Status.Connected := by
  obtain ⟨cs, hrun, hcl, hnd, hall⟩ :=
    pickSeq_fresh checked shs mgr hc hS (by rw [hR]; exact List.nodup_nil)
      (by rw [hR]; exact List.nil_subset _) (by rw [hR]; simp [hlen]) hsh
  rw [hR, List.nil_append] at hnd
  have hsubs : cs.map (fun c => c.id) ⊆ mgr.height.seenBy := by
    intro a ha
    obtain ⟨c, hcm, rfl⟩ := List.mem_map.1 ha
    exact (hall c hcm).1
  have hperm : (cs.map (fun c => c.id)).Perm mgr.height.seenBy :=
    (List.subperm_of_subset hnd hsubs).perm_of_length_le (by simp [hcl, hlen])
  have hc1 : SeenByConnected
      { mgr with recentPicks := mgr.recentPicks ++ cs.map (fun c => c.id) } := hc
  obtain ⟨cLast, hls, hlmem, hcase⟩ := pick_connected shLast hshLast checked _ hc1 hne
  have hpl : ∃ m1, pick shLast true checked
      { mgr with recentPicks := mgr.recentPicks ++ cs.map (fun c => c.id) } =
        (m1, PickOutcome.returned (some cLast)) := by
    rcases hcase with ⟨_, _, hp⟩ | ⟨_, hp⟩
    · exact ⟨_, hp⟩
    · exact ⟨_, hp⟩
  obtain ⟨m1, hp⟩ := hpl
  refine ⟨cs, cLast, ?_, by rw [hcl, hlen], hperm, hnd, fun c hcm => (hall c hcm).2,
    hlmem, hls⟩
  rw [pickSeq_append, hrun]
  simp only [pickSeq, hp]

/-- C5 on an example: peers 1, 2, 3 confirm the tip; four calls of `pick` with the shuffles
identity, reverse, identity, reverse return peers 1, 3, 2 and then 3 again. -/
theorem pick_fair_rotation_witness :
    (pickSeq true (mgrSeenBy threePeers []) (exampleShuffles ++ [List.reverse])).2 =
      [PickOutcome.returned (some (mkClient 1 Status.Connected)),
       PickOutcome.returned (some (mkClient 3 Status.Connected)),
       PickOutcome.returned (some (mkClient 2 Status.Connected)),
       PickOutcome.returned (some (mkClient 3 Status.Connected))] ∧
    ∃ (cs : List EXClient) (cLast : EXClient),
      (pickSeq true (mgrSeenBy threePeers []) (exampleShuffles ++ [List.reverse])).2 =
        cs.map (fun c => PickOutcome.returned (some c)) ++
          [PickOutcome.returned (some cLast)] ∧
      cs.length = (mgrSeenBy threePeers []).height.seenBy.length ∧
      (cs.map (fun c => c.id)).Perm (mgrSeenBy threePeers []).height.seenBy ∧
      (cs.map (fun c => c.id)).Nodup ∧
      (∀ c ∈ cs, c.status = Status.Connected) ∧
      cLast.id ∈ (mgrSeenBy threePeers []).height.seenBy ∧
      cLast.status = Status.Connected :=
  ⟨by decide,
   pick_fair_rotation true (mgrSeenBy threePeers []) exampleShuffles List.reverse
    (seenByConnected_threePeers []) (by decide) (by decide) rfl rfl
    (by
      intro sh hsh
      simp only [exampleShuffles, List.mem_cons, List.mem_singleton, List.not_mem_nil,
        or_false] at hsh
      rcases hsh with rfl | rfl | rfl
      · exact isShuffle_id
      · exact isShuffle_reverse
      · exact isShuffle_id)
    isShuffle_reverse⟩

/-! ## Correlation of `listunspent` results -/

theorem tableGet_eq_none {K V : Type} [DecidableEq K] (t : List (K × V)) (k : K)
    (h : k ∉ t.map Prod.fst) : tableGet t k = none := by
  induction t with
  | nil => rfl
  | cons e rest ih =>
    obtain ⟨a, b⟩ := e
    simp only [List.map_cons, List.mem_cons, not_or] at h
    have hne : ¬ a = k := fun hh => h.1 hh.symm
    simp only [tableGet, hne, if_false]
    exact ih h.2

theorem tableGet_mem_keys {K V : Type} [DecidableEq K] (t : List (K × V)) (k : K) (v : V)
    (h : tableGet t k = some v) : k ∈ t.map Prod.fst := by
  by_contra hk
  rw [tableGet_eq_none t k hk] at h
  exact Option.noConfusion h

theorem tableGet_tableSet {K V : Type} [DecidableEq K] (t : List (K × V)) (k k1 : K) (v : V) :
    tableGet (tableSet t k v) k1 = if k = k1 then some v else tableGet t k1 := by
  induction t with
  | nil => simp [tableSet, tableGet]
  | cons e rest ih =>
    obtain ⟨a, b⟩ := e
    by_cases hak : a = k
    · subst hak
      by_cases hk1 : a = k1
      · simp [tableSet, tableGet, hk1]
      · simp [tableSet, tableGet, hk1]
    · by_cases hk1 : a = k1
      · subst hk1
        simp [tableSet, tableGet, hak, Ne.symm hak]
      · simp [tableSet, tableGet, hak, hk1, ih]

theorem mem_keys_tableSet {K V : Type} [DecidableEq K] (t : List (K × V)) (k x : K) (v : V) :
    x ∈ (tableSet t k v).map Prod.fst ↔ x = k ∨ x ∈ t.map Prod.fst := by
  induction t with
  | nil => simp [tableSet]
  | cons e rest ih =>
    obtain ⟨a, b⟩ := e
    by_cases hak : a = k
    · subst hak
      simp [tableSet]
    · simp only [tableSet, hak, if_false, List.map_cons, List.mem_cons, ih]
      tauto

/-- Assigning to a table with one entry per key leaves one entry per key. -/
theorem nodup_keys_tableSet {K V : Type} [DecidableEq K] (t : List (K × V)) (k : K) (v : V)
    (h : (t.map Prod.fst).Nodup) : ((tableSet t k v).map Prod.fst).Nodup := by
  induction t with
  | nil => simp [tableSet]
  | cons e rest ih =>
    obtain ⟨a, b⟩ := e
    rw [List.map_cons, List.nodup_cons] at h
    by_cases hak : a = k
    · subst hak
      simp only [tableSet, if_true, List.map_cons, List.nodup_cons]
      exact h
    · simp only [tableSet, hak, if_false, List.map_cons, List.nodup_cons]
      refine ⟨?_, ih h.2⟩
      rw [mem_keys_tableSet]
      rintro (h1 | h1)
      · exact hak h1
      · exact h.1 h1

theorem tableGet_tableErase_self {K V : Type} [DecidableEq K] (t : List (K × V)) (k : K) :
    tableGet (tableErase t k) k = none := by
  apply tableGet_eq_none
  simp [tableErase, List.mem_map, List.mem_filter]

theorem tableErase_cons {K V : Type} [DecidableEq K] (a : K) (b : V) (rest : List (K × V))
    (k : K) :
    tableErase ((a, b) :: rest) k =
      if a = k then tableErase rest k else (a, b) :: tableErase rest k := by
  by_cases hak : a = k <;> simp [tableErase, List.filter_cons, hak]

theorem tableGet_tableErase_ne {K V : Type} [DecidableEq K] (t : List (K × V)) (k k1 : K)
    (h : k1 ≠ k) : tableGet (tableErase t k) k1 = tableGet t k1 := by
  induction t with
  | nil => rfl
  | cons e rest ih =>
    obtain ⟨a, b⟩ := e
    rw [tableErase_cons]
    by_cases hak : a = k
    · rw [if_pos hak, ih]
      subst hak
      simp [tableGet, Ne.symm h]
    · rw [if_neg hak]
      simp only [tableGet]
      rw [ih]

theorem takePending_unknown (t : List (Int × PendingReq)) (id : Int)
    (h : id ∉ t.map Prod.fst) : takePending t id = (PendingReq.dflt, t) := by
  simp [takePending, tableGet_eq_none t id h]

theorem takePending_known (t : List (Int × PendingReq)) (id : Int) (p : PendingReq)
    (h : tableGet t id = some p) : takePending t id = (p, tableErase t id) := by
  simp [takePending, h]

/-- C6. A `blockchain.scripthash.listunspent` result whose id is not a key of the
pending-request table (a default-constructed pending request being invalid, line 285):
`processListUnspentResults` leaves the whole manager state as it was (the table, the height
record with `seenBy`, `recentPicks`), emits no signal, logs the error with the host and the
JSON, and returns normally; through `onMessage` the peer and its info are unchanged too. -/
theorem unknown_id_leaves_state (ext : Ext) (mgr : EXMgr) (client : EXClient) (m : Message)
    (now : Int) (hdflt : ext.pendIsValid PendingReq.dflt = false)
    (hid : m.id ∉ mgr.pendingListUnspentReqs.map Prod.fst) :
    (processListUnspentResults ext mgr client m now).1 = mgr ∧
    (processListUnspentResults ext mgr client m now).2.signals = [] ∧
    (processListUnspentResults ext mgr client m now).2.escaped = none ∧
    (processListUnspentResults ext mgr client m now).2.errors =
      [{ what := "No pending request matching req.id was found in map! FIXME!",
         server := client.host, json := m.json }] ∧
    (m.method = "blockchain.scripthash.listunspent" → m.isResult = true →
      (onMessage ext mgr client m now).1 = mgr ∧
      (onMessage ext mgr client m now).2.1 = client ∧
      (onMessage ext mgr client m now).2.2.signals = [] ∧
      (onMessage ext mgr client m now).2.2.escaped = none) := by
  have hp : processListUnspentResults ext mgr client m now =
      (mgr, { signals := [], errors :=
        [{ what := "No pending request matching req.id was found in map! FIXME!",
           server := client.host, json := m.json }], escaped := none }) := by
    simp [processListUnspentResults, takePending_unknown _ _ hid, tryBlock, hdflt]
  refine ⟨by rw [hp], by rw [hp], by rw [hp], by rw [hp], ?_⟩
  intro hm hr
  have h1 : ¬ ("blockchain.scripthash.listunspent" = "server.version") := by decide
  have h2 : ¬ ("blockchain.scripthash.listunspent" = "blockchain.headers.subscribe") := by
    decide
  have h3 : ¬ ("blockchain.scripthash.listunspent" = "server.ping") := by decide
  simp only [onMessage, hm, h1, h2, h3, hr, if_false, and_self, if_true, hp]

/-- C6 on an example: the only pending request has id 7 and a result with id 8 arrives. -/
theorem unknown_id_leaves_state_witness :
    (processListUnspentResults extEx mgrPending (mkClient 1 Status.Connected)
        (unspentResult 8 []) 9).1 = mgrPending ∧
    (processListUnspentResults extEx mgrPending (mkClient 1 Status.Connected)
        (unspentResult 8 []) 9).2.signals = [] ∧
    (processListUnspentResults extEx mgrPending (mkClient 1 Status.Connected)
        (unspentResult 8 []) 9).2.escaped = none ∧
    (processListUnspentResults extEx mgrPending (mkClient 1 Status.Connected)
        (unspentResult 8 []) 9).2.errors =
      [{ what := "No pending request matching req.id was found in map! FIXME!",
         server := (mkClient 1 Status.Connected).host, json := (unspentResult 8 []).json }] ∧
    ((unspentResult 8 []).method = "blockchain.scripthash.listunspent" →
      (unspentResult 8 []).isResult = true →
      (onMessage extEx mgrPending (mkClient 1 Status.Connected) (unspentResult 8 []) 9).1
        = mgrPending ∧
      (onMessage extEx mgrPending (mkClient 1 Status.Connected) (unspentResult 8 []) 9).2.1
        = mkClient 1 Status.Connected ∧
      (onMessage extEx mgrPending (mkClient 1 Status.Connected)
        (unspentResult 8 []) 9).2.2.signals = [] ∧
      (onMessage extEx mgrPending (mkClient 1 Status.Connected)
        (unspentResult 8 []) 9).2.2.escaped = none) :=
  unknown_id_leaves_state extEx mgrPending (mkClient 1 Status.Connected) (unspentResult 8 []) 9
    (by decide) (by decide)

/-- A list with a malformed record makes the loop of lines 295-311 throw. -/
theorem aggregate_malformed (ext : Ext) (l : List UnspentVar) :
    ∀ entry : AddressUnspentEntry, (∃ v ∈ l, Malformed ext v) →
      ∃ t, aggregate ext entry l = Except.error t := by
  induction l with
  | nil =>
    intro _ h
    obtain ⟨v, hv, _⟩ := h
    exact absurd hv (List.not_mem_nil v)
  | cons x rest ih =>
    intro entry h
    unfold aggregate
    by_cases h1 : x.mapIsEmpty = true
    · rw [if_pos h1]
      exact ⟨_, rfl⟩
    · rw [if_neg h1]
      cases hp : x.tx_pos with
      | none => exact ⟨_, rfl⟩
      | some pos =>
        cases hh : x.height with
        | none => exact ⟨_, rfl⟩
        | some ht =>
          cases hv : x.value with
          | none => exact ⟨_, rfl⟩
          | some val =>
            by_cases hu : ext.utxoIsValid x.tx_hash pos = true
            · simp only [hu, if_true]
              apply ih
              obtain ⟨v, hvm, hmal⟩ := h
              rcases List.mem_cons.1 hvm with rfl | hvm
              · exfalso
                rcases hmal with hm | hm | hm | hm | ⟨q, hq, hqv⟩
                · exact h1 hm
                · rw [hp] at hm; exact Option.noConfusion hm
                · rw [hh] at hm; exact Option.noConfusion hm
                · rw [hv] at hm; exact Option.noConfusion hm
                · rw [hp] at hq
                  cases hq
                  rw [hu] at hqv
                  exact Bool.noConfusion hqv
              · exact ⟨v, hvm, hmal⟩
            · simp only [hu]
              exact ⟨_, rfl⟩

/-- C7. Atomic discard: when the result list holds a malformed output record, at any
position, `processListUnspentResults` emits no signal at all (so no `gotListUnspentResults`,
and nothing built from the records before the bad one is handed out), whether the id is
pending or not; the same holds for `onMessage` dispatching to it. -/
theorem malformed_record_emits_nothing (ext : Ext) (mgr : EXMgr) (client : EXClient)
    (m : Message) (now : Int) (hbad : ∃ v ∈ m.unspentList, Malformed ext v) :
    (processListUnspentResults ext mgr client m now).2.signals = [] ∧
    (m.method = "blockchain.scripthash.listunspent" →
      (onMessage ext mgr client m now).2.2.signals = []) := by
  have hthrow : ∃ t, tryBlock ext (takePending mgr.pendingListUnspentReqs m.id).1 client m now
      = Except.error t := by
    unfold tryBlock
    by_cases hv : ext.pendIsValid (takePending mgr.pendingListUnspentReqs m.id).1 = true
    · rw [if_pos hv]
      by_cases he : m.unspentList.isEmpty = true
      · simp only [he, if_true]
        exact ⟨_, rfl⟩
      · simp only [he]
        exact aggregate_malformed ext _ _ hbad
    · rw [if_neg hv]
      exact ⟨_, rfl⟩
  obtain ⟨t, ht⟩ := hthrow
  have hsig : (processListUnspentResults ext mgr client m now).2.signals = [] := by
    unfold processListUnspentResults
    simp only [ht]
    cases t <;> rfl
  refine ⟨hsig, ?_⟩
  intro hm
  have h1 : ¬ ("blockchain.scripthash.listunspent" = "server.version") := by decide
  have h2 : ¬ ("blockchain.scripthash.listunspent" = "blockchain.headers.subscribe") := by
    decide
  have h3 : ¬ ("blockchain.scripthash.listunspent" = "server.ping") := by decide
  simp only [onMessage, hm, h1, h2, h3, if_false, true_and]
  by_cases hr : m.isResult = true
  · simp only [hr, if_true]
    exact hsig
  · simp only [hr]
    rfl

/-- C7 on an example: the second record of the list has a bad `tx_pos`; nothing is emitted,
the well-formed first record included. -/
theorem malformed_record_emits_nothing_witness :
    (processListUnspentResults extEx mgrPending (mkClient 1 Status.Connected)
      (unspentResult 7 [Output.toVar { tx_hash := "aa", tx_pos := 0, height := 5, value := 10 },
        badPosVar]) 9).2.signals = [] ∧
    ((unspentResult 7 [Output.toVar { tx_hash := "aa", tx_pos := 0, height := 5, value := 10 },
        badPosVar]).method = "blockchain.scripthash.listunspent" →
      (onMessage extEx mgrPending (mkClient 1 Status.Connected)
        (unspentResult 7
          [Output.toVar { tx_hash := "aa", tx_pos := 0, height := 5, value := 10 },
           badPosVar]) 9).2.2.signals = []) :=
  malformed_record_emits_nothing extEx mgrPending (mkClient 1 Status.Connected)
    (unspentResult 7 [Output.toVar { tx_hash := "aa", tx_pos := 0, height := 5, value := 10 },
      badPosVar]) 9
    ⟨badPosVar, by simp [unspentResult], Or.inr (Or.inl rfl)⟩

/-- C8, the code at the failing input: request 7 is pending and its result list holds one
record that is an empty map. The `const char *` thrown in line 297 is not caught by the
handler of line 315: the exception leaves `processListUnspentResults` (and `onMessage`),
nothing is logged, and the pending entry is gone. A record with a bad `tx_pos` in the same
place is caught and logged. -/
theorem empty_map_exception_escapes :
    processListUnspentResults extEx mgrPending (mkClient 1 Status.Connected)
        (unspentResult 7 [emptyMapVar]) 9 =
      ({ mgrPending with pendingListUnspentReqs := [] },
       { signals := [], errors := [], escaped := some "Empty map in results list" }) ∧
    (onMessage extEx mgrPending (mkClient 1 Status.Connected)
        (unspentResult 7 [emptyMapVar]) 9).2.2.escaped = some "Empty map in results list" ∧
    (processListUnspentResults extEx mgrPending (mkClient 1 Status.Connected)
        (unspentResult 7 [badPosVar]) 9).2 =
      { signals := [],
        errors := [{ what := "Bad tx_pos in dict", server := "peer", json := "json" }],
        escaped := none } := by
  refine ⟨by decide, by decide, by decide⟩

/-- C9, as stated, fails on the empty list: request 7 is pending and valid, the result is
the empty list (a list of well-formed records with distinct keys), and line 293 throws
"Empty results": no signal is emitted, the error is logged, the pending entry is removed. -/
theorem empty_result_counterexample :
    tableGet mgrPending.pendingListUnspentReqs (unspentResult 7 []).id =
      some { address := { text := "addr" }, ts := 5, clientId := 1 } ∧
    extEx.pendIsValid { address := { text := "addr" }, ts := 5, clientId := 1 } = true ∧
    (unspentResult 7 []).unspentList = ([] : List Output).map Output.toVar ∧
    processListUnspentResults extEx mgrPending (mkClient 1 Status.Connected)
        (unspentResult 7 []) 9 =
      ({ mgrPending with pendingListUnspentReqs := [] },
       { signals := [],
         errors := [{ what := "Empty results", server := "peer", json := "json" }],
         escaped := none }) ∧
    ¬ ∃ entry : AddressUnspentEntry,
      (processListUnspentResults extEx mgrPending (mkClient 1 Status.Connected)
        (unspentResult 7 []) 9).2.signals = [Signal.gotListUnspentResults entry] := by
  refine ⟨by decide, by decide, by decide, by decide, ?_⟩
  rintro ⟨entry, h⟩
  have h0 : (processListUnspentResults extEx mgrPending (mkClient 1 Status.Connected)
      (unspentResult 7 []) 9).2.signals = [] := by decide
  rw [h0] at h
  exact List.noConfusion h

theorem aggregate_cons_output (ext : Ext) (entry : AddressUnspentEntry) (o : Output)
    (l : List UnspentVar) (hu : ext.utxoIsValid o.tx_hash o.tx_pos = true) :
    aggregate ext entry (o.toVar :: l) =
      aggregate ext
        (if o.height > 0 then
          { entry with utxoAmounts := tableSet entry.utxoAmounts o.key o.value }
        else
          { entry with utxoUnconfAmounts := tableSet entry.utxoUnconfAmounts o.key o.value })
        l := by
  simp [aggregate, Output.toVar, Output.key, hu]

/-- How the content of an amount map at key `k` changes when the output `o` is processed
before the outputs `rest`; `sel` selects the outputs that go into this map. -/
theorem amounts_step (sel : Output → Prop) [DecidablePred sel] (o : Output)
    (rest : List Output) (k : UTXO) (v : Nat) (g1 g0 : Option Nat)
    (hg : g1 = if sel o ∧ o.key = k then some o.value else g0)
    (hnd : ∀ x ∈ rest, x.key ≠ o.key) :
    ((∃ x ∈ rest, sel x ∧ x.key = k ∧ x.value = v) ∨
        ((∀ x ∈ rest, sel x → x.key ≠ k) ∧ g1 = some v)) ↔
    ((∃ x ∈ o :: rest, sel x ∧ x.key = k ∧ x.value = v) ∨
        ((∀ x ∈ o :: rest, sel x → x.key ≠ k) ∧ g0 = some v)) := by
  by_cases hc : sel o ∧ o.key = k
  · rw [if_pos hc] at hg
    obtain ⟨hs, hk⟩ := hc
    constructor
    · rintro (⟨x, hx, h1, h2, h3⟩ | ⟨_, hv⟩)
      · exact Or.inl ⟨x, List.mem_cons_of_mem _ hx, h1, h2, h3⟩
      · rw [hg] at hv
        exact Or.inl ⟨o, List.mem_cons_self _ _, hs, hk, Option.some.inj hv⟩
    · rintro (⟨x, hx, h1, h2, h3⟩ | ⟨hall, _⟩)
      · rcases List.mem_cons.1 hx with rfl | hx
        · refine Or.inr ⟨?_, by rw [hg, h3]⟩
          intro y hy _
          rw [← hk]
          exact hnd y hy
        · exact Or.inl ⟨x, hx, h1, h2, h3⟩
      · exact absurd hk (hall o (List.mem_cons_self _ _) hs)
  · rw [if_neg hc] at hg
    subst hg
    constructor
    · rintro (⟨x, hx, h1, h2, h3⟩ | ⟨hall, hv⟩)
      · exact Or.inl ⟨x, List.mem_cons_of_mem _ hx, h1, h2, h3⟩
      · refine Or.inr ⟨?_, hv⟩
        intro y hy hys
        rcases List.mem_cons.1 hy with rfl | hy
        · exact fun hk => hc ⟨hys, hk⟩
        · exact hall y hy hys
    · rintro (⟨x, hx, h1, h2, h3⟩ | ⟨hall, hv⟩)
      · rcases List.mem_cons.1 hx with rfl | hx
        · exact absurd ⟨h1, h2⟩ hc
        · exact Or.inl ⟨x, hx, h1, h2, h3⟩
      · exact Or.inr ⟨fun y hy => hall y (List.mem_cons_of_mem _ hy), hv⟩

/-- The loop of lines 295-311 on a list of well-formed outputs with distinct keys: it does
not throw, and each output ends in the confirmed map when its height is positive and in the
unconfirmed map otherwise, on top of what the maps held before. -/
theorem aggregate_outputs (ext : Ext) (outs : List Output) :
    ∀ entry : AddressUnspentEntry,
      (∀ o ∈ outs, ext.utxoIsValid o.tx_hash o.tx_pos = true) →
      (outs.map Output.key).Nodup →
      (entry.utxoAmounts.map Prod.fst).Nodup →
      (entry.utxoUnconfAmounts.map Prod.fst).Nodup →
      ∃ e1, aggregate ext entry (outs.map Output.toVar) = Except.ok e1 ∧
        e1.address = entry.address ∧ e1.tsVerified = entry.tsVerified ∧
        e1.heightVerified = entry.heightVerified ∧
        (e1.utxoAmounts.map Prod.fst).Nodup ∧ (e1.utxoUnconfAmounts.map Prod.fst).Nodup ∧
        (∀ k v, tableGet e1.utxoAmounts k = some v ↔
          ((∃ x ∈ outs, 0 < x.height ∧ x.key = k ∧ x.value = v) ∨
           ((∀ x ∈ outs, 0 < x.height → x.key ≠ k) ∧
              tableGet entry.utxoAmounts k = some v))) ∧
        (∀ k v, tableGet e1.utxoUnconfAmounts k = some v ↔
          ((∃ x ∈ outs, x.height ≤ 0 ∧ x.key = k ∧ x.value = v) ∨
           ((∀ x ∈ outs, x.height ≤ 0 → x.key ≠ k) ∧
              tableGet entry.utxoUnconfAmounts k = some v))) := by
  induction outs with
  | nil =>
    intro entry _ _ hn1 hn2
    exact ⟨entry, rfl, rfl, rfl, rfl, hn1, hn2, by simp, by simp⟩
  | cons o rest ih =>
    intro entry hu hnd hn1 hn2
    rw [List.map_cons, List.nodup_cons] at hnd
    have hfresh : ∀ x ∈ rest, x.key ≠ o.key := by
      intro x hx hk
      exact hnd.1 (List.mem_map.2 ⟨x, hx, hk⟩)
    rw [List.map_cons, aggregate_cons_output ext entry o _ (hu o (List.mem_cons_self _ _))]
    by_cases hpos : o.height > 0
    · rw [if_pos hpos]
      obtain ⟨e1, hrun, ha, hts, hhv, hk1, hk2, hconf, hunc⟩ :=
        ih { entry with utxoAmounts := tableSet entry.utxoAmounts o.key o.value }
          (fun x hx => hu x (List.mem_cons_of_mem _ hx)) hnd.2
          (nodup_keys_tableSet _ _ _ hn1) hn2
      refine ⟨e1, hrun, ha, hts, hhv, hk1, hk2, ?_, ?_⟩
      · intro k v
        rw [hconf k v]
        apply amounts_step (fun x => 0 < x.height) o rest k v _ _ _ hfresh
        rw [tableGet_tableSet]
        by_cases hk : o.key = k
        · simp [hk, hpos]
        · simp [hk]
      · intro k v
        rw [hunc k v]
        apply amounts_step (fun x => x.height ≤ 0) o rest k v _ _ _ hfresh
        have : ¬ (o.height ≤ 0) := not_le.2 hpos
        simp [this]
    · rw [if_neg hpos]
      obtain ⟨e1, hrun, ha, hts, hhv, hk1, hk2, hconf, hunc⟩ :=
        ih { entry with utxoUnconfAmounts := tableSet entry.utxoUnconfAmounts o.key o.value }
          (fun x hx => hu x (List.mem_cons_of_mem _ hx)) hnd.2
          hn1 (nodup_keys_tableSet _ _ _ hn2)
      refine ⟨e1, hrun, ha, hts, hhv, hk1, hk2, ?_, ?_⟩
      · intro k v
        rw [hconf k v]
        apply amounts_step (fun x => 0 < x.height) o rest k v _ _ _ hfresh
        have : ¬ (0 < o.height) := hpos
        simp [this]
      · intro k v
        rw [hunc k v]
        apply amounts_step (fun x => x.height ≤ 0) o rest k v _ _ _ hfresh
        rw [tableGet_tableSet]
        have hle : o.height ≤ 0 := not_lt.1 hpos
        by_cases hk : o.key = k
        · simp [hk, hle]
        · simp [hk]

/-- C9, amended. The id of the result is a key of the pending-request table with a valid
entry, and the result is a non-empty list of well-formed output records with pairwise
distinct (tx_hash, tx_pos). Then `processListUnspentResults` removes the pending entry,
returns normally without logging an error, and emits exactly one `gotListUnspentResults`
whose entry carries the address of the pending request, whose confirmed map holds exactly
the records with height > 0 and whose unconfirmed map holds exactly the records with
height ≤ 0, each under its key (tx_hash, tx_pos) with the value of the record, one entry per
key. -/
theorem known_id_emits_entry (ext : Ext) (mgr : EXMgr) (client : EXClient) (m : Message)
    (now : Int) (pend : PendingReq) (outs : List Output)
    (hget : tableGet mgr.pendingListUnspentReqs m.id = some pend)
    (hvalid : ext.pendIsValid pend = true)
    (hl : m.unspentList = outs.map Output.toVar) (hne : outs ≠ [])
    (hu : ∀ o ∈ outs, ext.utxoIsValid o.tx_hash o.tx_pos = true)
    (hnd : (outs.map Output.key).Nodup) :
    ∃ entry : AddressUnspentEntry,
      processListUnspentResults ext mgr client m now =
        ({ mgr with pendingListUnspentReqs := tableErase mgr.pendingListUnspentReqs m.id },
         { signals := [Signal.gotListUnspentResults entry], errors := [], escaped := none }) ∧
      tableGet (tableErase mgr.pendingListUnspentReqs m.id) m.id = none ∧
      entry.address = pend.address ∧ entry.tsVerified = now ∧
      entry.heightVerified = client.info.height ∧
      (entry.utxoAmounts.map Prod.fst).Nodup ∧
      (entry.utxoUnconfAmounts.map Prod.fst).Nodup ∧
      (∀ k v, tableGet entry.utxoAmounts k = some v ↔
        ∃ x ∈ outs, 0 < x.height ∧ x.key = k ∧ x.value = v) ∧
      (∀ k v, tableGet entry.utxoUnconfAmounts k = some v ↔
        ∃ x ∈ outs, x.height ≤ 0 ∧ x.key = k ∧ x.value = v) := by
  obtain ⟨e1, hrun, ha, hts, hhv, hk1, hk2, hconf, hunc⟩ :=
    aggregate_outputs ext outs
      { address := pend.address, tsVerified := now, heightVerified := client.info.height,
        utxoAmounts := [], utxoUnconfAmounts := [] } hu hnd List.nodup_nil List.nodup_nil
  have hemp : (outs.map Output.toVar).isEmpty = false := by
    cases outs with
    | nil => exact absurd rfl hne
    | cons a b => rfl
  refine ⟨e1, ?_, tableGet_tableErase_self _ _, ha, hts, hhv, hk1, hk2, ?_, ?_⟩
  · simp only [processListUnspentResults, takePending_known _ _ _ hget, tryBlock, hvalid,
      if_true, hl, hemp, hrun]
    simp
  · intro k v
    rw [hconf k v]
    simp [tableGet]
  · intro k v
    rw [hunc k v]
    simp [tableGet]

/-- C9, amended, on an example: request 7 is pending; the result lists one output confirmed
at height 5 and two unconfirmed ones. -/
theorem known_id_emits_entry_witness :
    processListUnspentResults extEx mgrPending (mkClient 1 Status.Connected)
        (unspentResult 7 (exampleOutputs.map Output.toVar)) 9 =
      ({ mgrPending with pendingListUnspentReqs := [] },
       { signals := [Signal.gotListUnspentResults
           { address := { text := "addr" }, tsVerified := 9, heightVerified := 0,
             utxoAmounts := [(("aa", 0), 10)],
             utxoUnconfAmounts := [(("aa", 1), 20), (("bb", 1), 30)] }],
         errors := [], escaped := none }) ∧
    ∃ entry : AddressUnspentEntry,
      processListUnspentResults extEx mgrPending (mkClient 1 Status.Connected)
          (unspentResult 7 (exampleOutputs.map Output.toVar)) 9 =
        ({ mgrPending with
            pendingListUnspentReqs :=
              tableErase mgrPending.pendingListUnspentReqs
                (unspentResult 7 (exampleOutputs.map Output.toVar)).id },
         { signals := [Signal.gotListUnspentResults entry], errors := [], escaped := none }) ∧
      tableGet (tableErase mgrPending.pendingListUnspentReqs
          (unspentResult 7 (exampleOutputs.map Output.toVar)).id)
        (unspentResult 7 (exampleOutputs.map Output.toVar)).id = none ∧
      entry.address = { text := "addr" } ∧ entry.tsVerified = 9 ∧
      entry.heightVerified = (mkClient 1 Status.Connected).info.height ∧
      (entry.utxoAmounts.map Prod.fst).Nodup ∧
      (entry.utxoUnconfAmounts.map Prod.fst).Nodup ∧
      (∀ k v, tableGet entry.utxoAmounts k = some v ↔
        ∃ x ∈ exampleOutputs, 0 < x.height ∧ x.key = k ∧ x.value = v) ∧
      (∀ k v, tableGet entry.utxoUnconfAmounts k = some v ↔
        ∃ x ∈ exampleOutputs, x.height ≤ 0 ∧ x.key = k ∧ x.value = v) :=
  ⟨by decide,
   known_id_emits_entry extEx mgrPending (mkClient 1 Status.Connected)
    (unspentResult 7 (exampleOutputs.map Output.toVar)) 9
    { address := { text := "addr" }, ts := 5, clientId := 1 } exampleOutputs
    (by decide) (by decide) rfl (by decide) (by decide) (by decide)⟩

/-! ## Debounced "all connections lost" -/

theorem dRun_append (s : BitcoinDMgr) (l1 l2 : List DEvent) :
    dRun s (l1 ++ l2) =
      ((dRun (dRun s l1).1 l2).1, (dRun s l1).2 ++ (dRun (dRun s l1).1 l2).2) := by
  induction l1 generalizing s with
  | nil => simp [dRun]
  | cons e rest ih => simp [dRun, ih, List.append_assoc]

/-- Losing the connections `ids` removes them from `goodBitcoinDs`, leaves the check timer
pending, and emits nothing. -/
theorem dRun_lostAll (ids : List ClientId) :
    ∀ s : BitcoinDMgr, dRun s (lostAll ids) =
      ({ goodBitcoinDs := s.goodBitcoinDs.filter (fun g => decide (g ∉ ids)),
         chkTimer := if ids = [] then s.chkTimer else some miniTimeout }, []) := by
  induction ids with
  | nil =>
    intro s
    simp [lostAll, dRun]
  | cons i rest ih =>
    intro s
    have hcons : lostAll (i :: rest) = DEvent.lostConnection i false :: lostAll rest := rfl
    rw [hcons]
    simp only [dRun, dStep, onLostConnectionD, Bool.false_eq_true, if_false, ih,
      callOnTimerSoonNoRepeat, setRemove, List.nil_append, List.filter_filter]
    refine Prod.ext ?_ rfl
    simp only
    congr 1
    · apply List.filter_congr
      intro x _
      simp only [List.mem_cons, not_or, Bool.decide_and, ne_eq, decide_not]
      exact Bool.and_comm _ _
    · by_cases hr : rest = [] <;> simp [hr]

/-- A step emits `allConnectionsLost` only when it is the check timer firing with
`goodBitcoinDs` empty. -/
theorem allLost_only_at_expiry (t : BitcoinDMgr) (e : DEvent)
    (h : DSignal.allConnectionsLost ∈ (dStep t e).2) :
    e = DEvent.timerExpired ∧ t.chkTimer ≠ none ∧ t.goodBitcoinDs = [] := by
  cases e with
  | authenticated id g =>
    exfalso
    cases g with
    | false => simp [dStep, onAuthenticated] at h
    | true =>
      by_cases he : t.goodBitcoinDs.isEmpty = true <;>
        simp [dStep, onAuthenticated, he] at h
  | lostConnection id g =>
    exfalso
    cases g <;> simp [dStep, onLostConnectionD] at h
  | timerExpired =>
    cases ht : t.chkTimer with
    | none => simp [dStep, onChkTimer, ht] at h
    | some ms =>
      by_cases he : t.goodBitcoinDs.isEmpty = true
      · exact ⟨rfl, by simp, List.isEmpty_iff.1 he⟩
      · simp [dStep, onChkTimer, ht, he] at h

/-- C10. Debounced "all lost". A step of the daemon pool manager emits `allConnectionsLost`
only when it is the check timer firing with `goodBitcoinDs` empty, never in a
`lostConnection` or `authenticated` step. When the connections `ids` (at least one) are lost
one after the other, nothing is emitted and one timer of 333 ms is pending; if they were all
the good ones, the timer firing emits `allConnectionsLost` exactly once (not once per daemon,
and not again at a further expiry); if a good one is not among them, `goodBitcoinDs` stays
non-empty and the timer firing emits nothing. -/
theorem all_lost_debounced (s : BitcoinDMgr) (ids : List ClientId) (hne : ids ≠ []) :
    (∀ (t : BitcoinDMgr) (e : DEvent), DSignal.allConnectionsLost ∈ (dStep t e).2 →
      e = DEvent.timerExpired ∧ t.chkTimer ≠ none ∧ t.goodBitcoinDs = []) ∧
    (dRun s (lostAll ids)).2 = [] ∧
    (dRun s (lostAll ids)).1.chkTimer = some 333 ∧
    ((∀ g ∈ s.goodBitcoinDs, g ∈ ids) →
      (dRun s (lostAll ids ++ [DEvent.timerExpired])).2 = [DSignal.allConnectionsLost] ∧
      (dRun s (lostAll ids ++ [DEvent.timerExpired, DEvent.timerExpired])).2 =
        [DSignal.allConnectionsLost]) ∧
    ((∃ g ∈ s.goodBitcoinDs, g ∉ ids) →
      (dRun s (lostAll ids ++ [DEvent.timerExpired])).1.goodBitcoinDs ≠ [] ∧
      (dRun s (lostAll ids ++ [DEvent.timerExpired])).2 = []) := by
  refine ⟨allLost_only_at_expiry, by rw [dRun_lostAll], ?_, ?_, ?_⟩
  · rw [dRun_lostAll]
    simp [hne, miniTimeout]
  · intro hall
    have hempty : s.goodBitcoinDs.filter (fun g => decide (g ∉ ids)) = [] := by
      rw [List.filter_eq_nil_iff]
      intro g hg
      simpa using hall g hg
    constructor
    · rw [dRun_append, dRun_lostAll]
      simp only [dRun, dStep, onChkTimer, hne, if_false, hempty, List.isEmpty_nil, if_true,
        List.nil_append, List.append_nil]
    · rw [dRun_append, dRun_lostAll]
      simp only [dRun, dStep, onChkTimer, hne, if_false, hempty, List.isEmpty_nil, if_true,
        List.nil_append, List.append_nil]
  · rintro ⟨g, hg, hgi⟩
    have hmem : g ∈ s.goodBitcoinDs.filter (fun g => decide (g ∉ ids)) := by
      rw [List.mem_filter]
      exact ⟨hg, by simpa using hgi⟩
    have hnonempty : s.goodBitcoinDs.filter (fun g => decide (g ∉ ids)) ≠ [] :=
      List.ne_nil_of_mem hmem
    have hne2 : (s.goodBitcoinDs.filter (fun g => decide (g ∉ ids))).isEmpty = false := by
      cases hf : s.goodBitcoinDs.filter (fun g => decide (g ∉ ids)) with
      | nil => exact absurd hf hnonempty
      | cons a b => rfl
    constructor
    · rw [dRun_append, dRun_lostAll]
      simp only [dRun, dStep, onChkTimer, hne, if_false]
      exact hnonempty
    · rw [dRun_append, dRun_lostAll]
      simp only [dRun, dStep, onChkTimer, hne, if_false, hne2, List.nil_append,
        List.append_nil]
      rfl

/-- C10 on the examples of the specification, three good daemons: when all three are lost
before the timer fires, `allConnectionsLost` is emitted once; when only daemons 1 and 2 are
lost, daemon 3 stays in `goodBitcoinDs` and nothing is emitted. -/
theorem all_lost_debounced_witness :
    (dRun threeGood (lostAll [1, 2, 3] ++ [DEvent.timerExpired])).2 =
      [DSignal.allConnectionsLost] ∧
    (dRun threeGood (lostAll [1, 2] ++ [DEvent.timerExpired])).1.goodBitcoinDs = [3] ∧
    ((dRun threeGood (lostAll [1, 2] ++ [DEvent.timerExpired])).1.goodBitcoinDs ≠ [] ∧
      (dRun threeGood (lostAll [1, 2] ++ [DEvent.timerExpired])).2 = []) :=
  ⟨((all_lost_debounced threeGood [1, 2, 3] (by decide)).2.2.2.1 (by decide)).1,
   by decide,
   (all_lost_debounced threeGood [1, 2] (by decide)).2.2.2.2 ⟨3, by decide, by decide⟩⟩

/-! ## Health sweep -/

theorem reconnectTime_eq : reconnectTime = 120000 := by
  decide

theorem bad_timeout_eq : bad_timeout = 900000 := by
  decide

theorem low_server_timeout_eq : low_server_timeout = 30000 := by
  decide

theorem stale_timeout_eq (mgr : EXMgr) :
    stale_timeout mgr = if mgr.height.seenBy = [] then 30000 else 120000 := by
  unfold stale_timeout
  rw [low_server_timeout_eq, reconnectTime_eq]
  by_cases h : mgr.height.seenBy = []
  · simp [h]
  · have : mgr.height.seenBy.length ≠ 0 := fun hl => h (List.length_eq_zero.1 hl)
    simp [h, this]

theorem stale_timeout_lt_bad_timeout (mgr : EXMgr) : stale_timeout mgr < bad_timeout := by
  rw [stale_timeout_eq, bad_timeout_eq]
  split_ifs <;> decide

theorem wrapInt64_of_range (x : Int) (h1 : -(2 ^ 63) ≤ x) (h2 : x < 2 ^ 63) :
    wrapInt64 x = x := by
  unfold wrapInt64
  omega

/-- Timestamps of `Util::getTime()` do not overflow the subtractions of line 161. -/
theorem noOverflow_of_timestamps (client : EXClient) (now : Int) (h0 : IsTimestamp now)
    (h1 : IsTimestamp client.lastConnectionAttempt) (h2 : IsTimestamp client.lastGood) :
    NoOverflow client now := by
  unfold IsTimestamp at h0 h1 h2
  unfold NoOverflow
  refine ⟨?_, ?_, ?_, ?_⟩ <;> omega

/-- When the subtractions do not overflow, the elapsed time of line 161 is the time since
the later of the two timestamps. -/
theorem elapsed_eq (client : EXClient) (now : Int) (hr : NoOverflow client now) :
    elapsed client now = now - max client.lastConnectionAttempt client.lastGood := by
  obtain ⟨h1, h2, h3, h4⟩ := hr
  unfold elapsed
  rw [wrapInt64_of_range _ h1 h2, wrapInt64_of_range _ h3 h4]
  rcases le_total client.lastConnectionAttempt client.lastGood with h | h
  · rw [max_eq_right h, min_eq_right (by omega)]
  · rw [max_eq_left h, min_eq_left (by omega)]

/-- The restart decision of one iteration, branch by branch. -/
theorem restarts_iff (cx : ConnExt) (mgr : EXMgr) (client : EXClient) (now : Int) :
    restarts cx mgr client now = true ↔
      ¬ (cx.isGood client = true ∧ cx.isStale client now = false) ∧
      ((client.status = Status.Bad ∧ elapsed client now > bad_timeout) ∨
       ((cx.isStale client now = true ∨ cx.isGood client = false) ∧
          elapsed client now > stale_timeout mgr)) := by
  unfold restarts checkClient
  dsimp only
  by_cases hskip : cx.isGood client = true ∧ cx.isStale client now = false
  · rw [if_pos hskip]
    simp [SweepAction.restarted, hskip]
  · rw [if_neg hskip]
    by_cases hbad : client.isBad = true ∧ elapsed client now > bad_timeout
    · rw [if_pos hbad]
      have hst : client.status = Status.Bad := by
        have := hbad.1
        unfold EXClient.isBad at this
        exact of_decide_eq_true this
      simp only [SweepAction.restarted, true_iff]
      exact ⟨hskip, Or.inl ⟨hst, hbad.2⟩⟩
    · rw [if_neg hbad]
      have hbad2 : ¬ (client.status = Status.Bad ∧ elapsed client now > bad_timeout) := by
        rintro ⟨h1, h2⟩
        exact hbad ⟨by unfold EXClient.isBad; exact decide_eq_true h1, h2⟩
      by_cases hstale : cx.isStale client now = true ∧ elapsed client now > stale_timeout mgr
      · rw [if_pos hstale]
        simp only [SweepAction.restarted, true_iff]
        exact ⟨hskip, Or.inr ⟨Or.inl hstale.1, hstale.2⟩⟩
      · rw [if_neg hstale]
        by_cases hretry : cx.isGood client = false ∧ elapsed client now > stale_timeout mgr
        · rw [if_pos hretry]
          simp only [SweepAction.restarted, true_iff]
          exact ⟨hskip, Or.inr ⟨Or.inr hretry.1, hretry.2⟩⟩
        · rw [if_neg hretry]
          simp only [SweepAction.restarted, Bool.false_eq_true, false_iff]
          rintro ⟨_, h | ⟨h1 | h1, h2⟩⟩
          · exact hbad2 h
          · exact hstale ⟨h1, h2⟩
          · exact hretry ⟨h1, h2⟩

/-- C11. Health sweep decision, for every peer and every time at which the two `qint64`
subtractions of line 161 do not overflow: a peer that is good and not stale is not
restarted; any other peer is restarted exactly when it is Bad and elapsed exceeds 15
minutes, or it is stale or not good and elapsed exceeds the tolerance. Elapsed is the time
since the later of the last connection attempt and the last good traffic; the tolerance is
30 000 ms when `seenBy` is empty and 120 000 ms otherwise, the first being shorter than the
second. The sweep restarts exactly the clients for which this holds. -/
theorem sweep_decision (cx : ConnExt) (mgr : EXMgr) (client : EXClient) (now : Int)
    (clock : EXClient → Int) (hrange : NoOverflow client now) :
    (cx.isGood client = true → cx.isStale client now = false →
      restarts cx mgr client now = false) ∧
    (¬ (cx.isGood client = true ∧ cx.isStale client now = false) →
      (restarts cx mgr client now = true ↔
        (client.status = Status.Bad ∧
          now - max client.lastConnectionAttempt client.lastGood > 15 * 60 * 1000) ∨
        ((cx.isStale client now = true ∨ cx.isGood client = false) ∧
          now - max client.lastConnectionAttempt client.lastGood >
            (if mgr.height.seenBy = [] then 30000 else 120000)))) ∧
    elapsed client now = now - max client.lastConnectionAttempt client.lastGood ∧
    stale_timeout mgr = (if mgr.height.seenBy = [] then 30000 else 120000) ∧
    low_server_timeout = 30000 ∧ reconnectTime = 120000 ∧ bad_timeout = 15 * 60 * 1000 ∧
    low_server_timeout < reconnectTime ∧
    (∀ c, c ∈ (checkClients cx mgr clock).restartedClients ↔
      c ∈ mgr.clients ∧ restarts cx mgr c (clock c) = true) := by
  refine ⟨?_, ?_, elapsed_eq client now hrange, stale_timeout_eq mgr, by decide, by decide,
    by decide, by decide, ?_⟩
  · intro hg hs
    cases hr : restarts cx mgr client now with
    | false => rfl
    | true => exact absurd ⟨hg, hs⟩ ((restarts_iff cx mgr client now).1 hr).1
  · intro hskip
    rw [restarts_iff, elapsed_eq client now hrange, stale_timeout_eq, bad_timeout_eq]
    constructor
    · rintro ⟨_, h⟩
      exact h
    · intro h
      exact ⟨hskip, h⟩
  · intro c
    simp [checkClients, List.mem_filter]

/-- C11 on an example: nobody confirms the tip, and a Bad peer whose timestamps are 0 is
looked at 40 s later: it is restarted, the tolerance being 30 s. -/
theorem sweep_decision_witness :
    NoOverflow (mkClient 1 Status.Bad) 40000 ∧
    restarts connEx (freshMgr []) (mkClient 1 Status.Bad) 40000 = true ∧
    checkClient connEx (freshMgr []) (mkClient 1 Status.Bad) 40000 = SweepAction.retry :=
  ⟨⟨by decide, by decide, by decide, by decide⟩,
   ((sweep_decision connEx (freshMgr []) (mkClient 1 Status.Bad) 40000 (fun _ => 40000)
      ⟨by decide, by decide, by decide, by decide⟩).2.1 (by decide)).2
      (Or.inr ⟨Or.inr (by decide), by decide⟩),
   by decide⟩

/-- Outside the range of the hypothesis of C11 the difference of line 161 wraps: for a peer
whose `lastGood` is the smallest `qint64`, looked at when the clock shows 1 000 000 ms,
`now - lastGood` overflows, `elapsed` is negative and the peer is not restarted, although
200 000 ms have passed since its last connection attempt. -/
theorem elapsed_wraps_example :
    ¬ NoOverflow clientMinInt 1000000 ∧
    elapsed clientMinInt 1000000 = 1000000 - 2 ^ 63 ∧
    restarts connEx (freshMgr []) clientMinInt 1000000 = false := by
  refine ⟨?_, by decide, by decide⟩
  rintro ⟨_, _, _, h⟩
  revert h
  decide

theorem stalenessTolerance_eq (mgr : EXMgr) : stalenessTolerance mgr = stale_timeout mgr := by
  rw [stale_timeout_eq]
  rfl

/-- C12. The bad-timeout of 15 minutes never changes the outcome. When `isGood()` implies
that the status is Connected, and the `qint64` subtractions of line 161 do not overflow, the
restart decision of `checkClients` is the simpler rule "not (good and not stale), and
elapsed exceeds the staleness tolerance", the tolerance being 30 000 ms when `seenBy` is
empty and 120 000 ms otherwise; a peer marked Bad is restarted as soon as elapsed exceeds
that tolerance, which is below the bad-timeout of 900 000 ms. -/
theorem bad_timeout_redundant (cx : ConnExt) (mgr : EXMgr) (client : EXClient) (now : Int)
    (hgood : cx.isGood client = true → client.status = Status.Connected)
    (hrange : NoOverflow client now) :
    restarts cx mgr client now = simplerRestart cx mgr client now ∧
    (client.status = Status.Bad →
      (restarts cx mgr client now = true ↔
        now - max client.lastConnectionAttempt client.lastGood >
          (if mgr.height.seenBy = [] then 30000 else 120000))) ∧
    stale_timeout mgr = (if mgr.height.seenBy = [] then 30000 else 120000) ∧
    bad_timeout = 15 * 60 * 1000 ∧
    stale_timeout mgr < bad_timeout := by
  have hlt := stale_timeout_lt_bad_timeout mgr
  have hbadgood : client.status = Status.Bad → cx.isGood client = false := by
    intro hb
    cases hg : cx.isGood client with
    | false => rfl
    | true =>
      have := hgood hg
      rw [hb] at this
      exact Status.noConfusion this
  have hiff : restarts cx mgr client now = true ↔
      ¬ (cx.isGood client = true ∧ cx.isStale client now = false) ∧
        now - max client.lastConnectionAttempt client.lastGood > stale_timeout mgr := by
    rw [restarts_iff, elapsed_eq client now hrange]
    constructor
    · rintro ⟨hskip, ⟨_, h2⟩ | ⟨_, h2⟩⟩
      · exact ⟨hskip, lt_trans hlt h2⟩
      · exact ⟨hskip, h2⟩
    · rintro ⟨hskip, h2⟩
      refine ⟨hskip, Or.inr ⟨?_, h2⟩⟩
      cases hg : cx.isGood client with
      | false => exact Or.inr rfl
      | true =>
        cases hs : cx.isStale client now with
        | false => exact absurd ⟨hg, hs⟩ hskip
        | true => exact Or.inl rfl
  refine ⟨?_, ?_, stale_timeout_eq mgr, by decide, hlt⟩
  · cases hr : restarts cx mgr client now with
    | true =>
      symm
      unfold simplerRestart
      rw [stalenessTolerance_eq]
      exact decide_eq_true (hiff.1 hr)
    | false =>
      symm
      unfold simplerRestart
      rw [stalenessTolerance_eq]
      apply decide_eq_false
      intro h
      have := hiff.2 h
      rw [hr] at this
      exact Bool.noConfusion this
  · intro hb
    rw [hiff, stale_timeout_eq]
    constructor
    · rintro ⟨_, h⟩
      exact h
    · intro h
      refine ⟨?_, h⟩
      rintro ⟨hg, _⟩
      rw [hbadgood hb] at hg
      exact Bool.noConfusion hg

/-- C12 on an example: three peers confirm the tip, so the tolerance is 120 s; a Bad peer
whose timestamps are 0 is restarted at 130 s, long before 15 minutes have passed, and is
left alone at 100 s. -/
theorem bad_timeout_redundant_witness :
    NoOverflow (mkClient 4 Status.Bad) 130000 ∧
    restarts connEx (mgrSeenBy threePeers []) (mkClient 4 Status.Bad) 130000 = true ∧
    restarts connEx (mgrSeenBy threePeers []) (mkClient 4 Status.Bad) 100000 = false ∧
    elapsed (mkClient 4 Status.Bad) 130000 < bad_timeout :=
  ⟨⟨by decide, by decide, by decide, by decide⟩,
   ((bad_timeout_redundant connEx (mgrSeenBy threePeers []) (mkClient 4 Status.Bad) 130000
      (by decide) ⟨by decide, by decide, by decide, by decide⟩).2.1 rfl).2 (by decide),
   by decide, by decide⟩

/-! ## Selection that finds nobody -/

/-- The loop over ids of peers that are registered and not Connected returns nothing and
leaves the state alone. -/
theorem pickLoop_none (checked : Bool) (mgr : EXMgr) :
    ∀ ids : List ClientId,
      (∀ id ∈ ids, ∃ c, tableGet mgr.clientsById id = some c ∧ c.id = id ∧
        c.status ≠ Status.Connected) →
      pickLoop checked mgr ids = (mgr, PickOutcome.returned none) := by
  intro ids
  induction ids with
  | nil =>
    intro _
    rfl
  | cons x rest ih =>
    intro h
    obtain ⟨c, hget, hid, hs⟩ := h x (List.mem_cons_self _ _)
    have hne : ¬ (checked = true ∧ c.id ≠ x) := fun hh => hh.2 hid
    simp only [pickLoop, hget, hne, if_false, hs]
    exact ih (fun id hid2 => h id (List.mem_cons_of_mem _ hid2))

/-- The loop never takes an id out of `recentPicks`. -/
theorem pickLoop_keeps_recentPicks (checked : Bool) (mgr : EXMgr) :
    ∀ ids : List ClientId, ∀ x ∈ mgr.recentPicks,
      x ∈ (pickLoop checked mgr ids).1.recentPicks := by
  intro ids
  induction ids with
  | nil =>
    intro x hx
    exact hx
  | cons i rest ih =>
    intro x hx
    unfold pickLoop
    cases hget : tableGet mgr.clientsById i with
    | none => exact hx
    | some c =>
      dsimp only
      split_ifs
      · exact hx
      · exact (mem_setInsert _ _ _).2 (Or.inr hx)
      · exact ih x hx

/-- When some confirming peer is not in `recentPicks`, `pick` does not clear
`recentPicks`. -/
theorem pick_keeps_recentPicks (sh : List ClientId → List ClientId)
    (inMainThread checked : Bool) (mgr : EXMgr)
    (hne : setDiff mgr.height.seenBy mgr.recentPicks ≠ []) :
    ∀ x ∈ mgr.recentPicks, x ∈ (pick sh inMainThread checked mgr).1.recentPicks := by
  intro x hx
  have hemp : (setDiff mgr.height.seenBy mgr.recentPicks).isEmpty = false := by
    cases h : setDiff mgr.height.seenBy mgr.recentPicks with
    | nil => exact absurd h hne
    | cons a b => rfl
  unfold pick
  cases inMainThread with
  | false => exact hx
  | true =>
    simp only [Bool.true_eq_false, if_false, hemp]
    exact pickLoop_keeps_recentPicks checked mgr _ x hx

/-- One call of `pick` when the confirming peers outside `recentPicks` exist and are all
not Connected: nothing is returned and the state is unchanged. -/
theorem pick_none (sh : List ClientId → List ClientId) (hsh : IsShuffle sh) (checked : Bool)
    (mgr : EXMgr) (hne : setDiff mgr.height.seenBy mgr.recentPicks ≠ [])
    (hnc : ∀ id ∈ setDiff mgr.height.seenBy mgr.recentPicks,
      ∃ c, tableGet mgr.clientsById id = some c ∧ c.id = id ∧ c.status ≠ Status.Connected) :
    pick sh true checked mgr = (mgr, PickOutcome.returned none) := by
  have hemp : (setDiff mgr.height.seenBy mgr.recentPicks).isEmpty = false := by
    cases h : setDiff mgr.height.seenBy mgr.recentPicks with
    | nil => exact absurd h hne
    | cons a b => rfl
  simp only [pick, Bool.true_eq_false, if_false, hemp]
  exact pickLoop_none checked mgr _ (fun id hid => hnc id ((hsh _).mem_iff.1 hid))

theorem pickSeq_none (checked : Bool) (mgr : EXMgr)
    (hne : setDiff mgr.height.seenBy mgr.recentPicks ≠ [])
    (hnc : ∀ id ∈ setDiff mgr.height.seenBy mgr.recentPicks,
      ∃ c, tableGet mgr.clientsById id = some c ∧ c.id = id ∧ c.status ≠ Status.Connected) :
    ∀ shs : List (List ClientId → List ClientId), (∀ sh ∈ shs, IsShuffle sh) →
      pickSeq checked mgr shs = (mgr, shs.map (fun _ => PickOutcome.returned none)) := by
  intro shs
  induction shs with
  | nil =>
    intro _
    rfl
  | cons sh rest ih =>
    intro hsh
    have h1 := pick_none sh (hsh sh (List.mem_cons_self _ _)) checked mgr hne hnc
    have h2 := ih (fun s hs => hsh s (List.mem_cons_of_mem _ hs))
    simp only [pickSeq, h1, h2, List.map_cons]

/-- C13. `pick` can return nothing while a Connected confirming peer exists. `seenBy` holds
the two peers a and b, a is Connected and was picked recently (`recentPicks` holds a), b is
not Connected. Then, for every outcome of the shuffles, every call of `pick` in a row
returns nothing and leaves the state, `recentPicks` included, as it was. In any state, as
long as some confirming peer is outside `recentPicks`, `pick` keeps `recentPicks`: it is
cleared only when `seenBy` minus `recentPicks` is empty. -/
theorem pick_starves (checked : Bool) (mgr : EXMgr) (a b : ClientId) (ca cb : EXClient)
    (shs : List (List ClientId → List ClientId)) (hab : a ≠ b)
    (hseen : mgr.height.seenBy = [a, b]) (hrecent : mgr.recentPicks = [a])
    (hca : tableGet mgr.clientsById a = some ca) (hcaid : ca.id = a)
    (hcas : ca.status = Status.Connected)
    (hcb : tableGet mgr.clientsById b = some cb) (hcbid : cb.id = b)
    (hcbs : cb.status ≠ Status.Connected) (hsh : ∀ sh ∈ shs, IsShuffle sh) :
    (∃ c, c.id ∈ mgr.height.seenBy ∧ tableGet mgr.clientsById c.id = some c ∧
      c.status = Status.Connected) ∧
    (∀ sh, IsShuffle sh → pick sh true checked mgr = (mgr, PickOutcome.returned none)) ∧
    pickSeq checked mgr shs = (mgr, shs.map (fun _ => PickOutcome.returned none)) ∧
    (∀ (m : EXMgr) (sh : List ClientId → List ClientId) (inMainThread : Bool),
      setDiff m.height.seenBy m.recentPicks ≠ [] →
      ∀ x ∈ m.recentPicks, x ∈ (pick sh inMainThread checked m).1.recentPicks) := by
  have hdiff : setDiff mgr.height.seenBy mgr.recentPicks = [b] := by
    rw [hseen, hrecent]
    simp [setDiff, hab, Ne.symm hab]
  have hne : setDiff mgr.height.seenBy mgr.recentPicks ≠ [] := by
    rw [hdiff]
    exact List.cons_ne_nil _ _
  have hnc : ∀ id ∈ setDiff mgr.height.seenBy mgr.recentPicks,
      ∃ c, tableGet mgr.clientsById id = some c ∧ c.id = id ∧
        c.status ≠ Status.Connected := by
    intro id hid
    rw [hdiff, List.mem_singleton] at hid
    subst hid
    exact ⟨cb, hcb, hcbid, hcbs⟩
  refine ⟨⟨ca, ?_, ?_, hcas⟩, ?_, pickSeq_none checked mgr hne hnc shs hsh, ?_⟩
  · rw [hcaid, hseen]
    exact List.mem_cons_self _ _
  · rw [hcaid]
    exact hca
  · intro sh hs
    exact pick_none sh hs checked mgr hne hnc
  · intro m sh im hm
    exact pick_keeps_recentPicks sh im checked m hm

/-- C13 on an example: peers 1 (Connected, picked recently) and 2 (not connected) confirm
the tip; three calls of `pick` return nothing three times and change nothing. -/
theorem pick_starves_witness :
    pickSeq true mgrStarved exampleShuffles =
      (mgrStarved, [PickOutcome.returned none, PickOutcome.returned none,
        PickOutcome.returned none]) ∧
    (mkClient 1 Status.Connected).id ∈ mgrStarved.height.seenBy :=
  ⟨(pick_starves true mgrStarved 1 2 (mkClient 1 Status.Connected)
      (mkClient 2 Status.NotConnected) exampleShuffles (by decide) rfl rfl rfl rfl rfl rfl rfl
      (by decide)
      (by
        intro sh hsh
        simp only [exampleShuffles, List.mem_cons, List.mem_singleton, List.not_mem_nil,
          or_false] at hsh
        rcases hsh with rfl | rfl | rfl
        · exact isShuffle_id
        · exact isShuffle_reverse
        · exact isShuffle_id)).2.2.1,
   by decide⟩

end Fulcrum
